import Mathlib

/-!
# Verification of the `ddtemplate` templating engine

Shallow embedding of `src/ddtemplate.py` (classes `Template`, `Context`, `Token`,
`Node`, `TextNode`, `PrintNode`, `IfNode`, `ElseNode`, `ForNode`, `Lexer`,
`Parser`) together with theorems settling the specification claims.

Python strings are modelled as Lean `String`/`List Char`; character indices of
`str.find` coincide with list indices.  Python exceptions are modelled with
`Except`; the distinct `raise` sites of the source get distinct constructors.
The external expression evaluator (Python's `eval`, an external collaborator of
the engine) is modelled from the spec, see `pyEvalLiteral` below.
-/

set_option maxRecDepth 100000

/-- Python values that flow through the engine: the data mapping's values,
loop items, and results of the literal evaluator. -/
inductive Value where
  | str : String → Value
  | bool : Bool → Value
  | int : Int → Value
  | list : List Value → Value
  | none : Value

/-- A Python scope dictionary: association list with unique keys,
`scopeBind` overwrites in place like `dict.__setitem__`. -/
abbrev PyScope := List (String × Value)

def scopeFind : PyScope → String → Option Value
  | [], _ => Option.none
  | (k, v) :: rest, key => if k = key then some v else scopeFind rest key

def scopeBind : PyScope → String → Value → PyScope
  | [], k, v => [(k, v)]
  | (k0, v0) :: rest, k, v =>
      if k0 = k then (k0, v) :: rest else (k0, v0) :: scopeBind rest k v

/-- Python whitespace characters stripped by `str.strip` / matched by `\s`
(ASCII subset, which is all the engine's inputs use). -/
def isPyWs (c : Char) : Bool :=
  c = ' ' || c = '\t' || c = '\n' || c = '\r' || c = '\x0b' || c = '\x0c'

/-- `str.rstrip()` -/
def pyRstrip (s : String) : String :=
  ((s.toList.reverse.dropWhile isPyWs).reverse).asString

/-- `str.strip()` -/
def pyStrip (s : String) : String :=
  (((s.toList.dropWhile isPyWs).reverse.dropWhile isPyWs).reverse).asString

/-- `str.split()` (split on runs of whitespace, no empty words). -/
def pySplitWs (cs : List Char) : List String :=
  go cs []
where
  go : List Char → List Char → List String
  | [], acc => if acc.isEmpty then [] else [acc.reverse.asString]
  | c :: rest, acc =>
      if isPyWs c then
        if acc.isEmpty then go rest [] else acc.reverse.asString :: go rest []
      else go rest (c :: acc)

/-- Python `str` rendering of a value, as used by `str(eval(varstring))`. -/
def pyStr : Value → String
  | .str s => s
  | .bool true => "True"
  | .bool false => "False"
  | .int n => toString n
  | .none => "None"
  | .list vs => "[" ++ String.intercalate ", " (vs.map pyReprShallow) ++ "]"
where
  pyReprShallow : Value → String
  | .str s => "'" ++ s ++ "'"
  | .bool true => "True"
  | .bool false => "False"
  | .int n => toString n
  | .none => "None"
  | .list _ => "[...]"

/-- Python truthiness, as used by `if eval(self.arg_string):`. -/
def pyTruthy : Value → Bool
  | .str s => s != ""
  | .bool b => b
  | .int n => n != 0
  | .list vs => !vs.isEmpty
  | .none => false

/-- `hasattr(collection, '__iter__')`: Python strings and lists are iterable,
booleans, integers and `None` are not. -/
def isIterable : Value → Bool
  | .str _ => true
  | .list _ => true
  | _ => false

/-- Iterating a Python value: a string yields its characters as
one-character strings, a list yields its elements. -/
def iterItems : Value → List Value
  | .str s => s.toList.map (fun c => Value.str (String.singleton c))
  | .list vs => vs
  | _ => []

/-- Modelled from the spec: the engine delegates expression evaluation to
Python's `eval`, an external collaborator whose interface §4.6 specifies as a
restricted literal / expression sub-language (boolean, numeric and string
literals at minimum); an expression that is not such a literal (e.g. an
unbound identifier) fails, which `eval` signals by raising (`NameError` etc.),
modelled here by `Option.none`. -/
def pyEvalLiteral (s : String) : Option Value :=
  let cs := s.toList
  if s = "True" then some (.bool true)
  else if s = "False" then some (.bool false)
  else if s = "None" then some Value.none
  else if cs ≠ [] ∧ cs.all (·.isDigit) then
    some (.int (s.toNat!))
  else if cs.length ≥ 2 ∧ cs.head? = some '\'' ∧ cs.getLast? = some '\'' ∧
          ((cs.drop 1).take (cs.length - 2)).all (fun c => c ≠ '\'' ∧ c ≠ '\\') then
    some (.str ((cs.drop 1).take (cs.length - 2)).asString)
  else Option.none

/-- `class Context`: a stack of name scopes.  The head of `scope` is the top
of the Python list (`self.scope[-1]`). -/
structure Context where
  scope : List PyScope

/-- `Context.__init__`: `[data]` if the mapping is non-empty, else `[{}]`
(for the empty mapping both cases are the same list). -/
def ContextOf (data : PyScope) : Context := ⟨[data]⟩

def Context.push (c : Context) : Context := ⟨[] :: c.scope⟩

def Context.pop (c : Context) : Context := ⟨c.scope.tail⟩

/-- `Context.__setitem__`: add a variable to the current (top) scope. -/
def Context.bind (c : Context) (k : String) (v : Value) : Context :=
  match c.scope with
  | [] => ⟨[]⟩
  | t :: r => ⟨scopeBind t k v :: r⟩

/-- `Context.lookup`: read from the top scope only; on failure try
`str(eval(varstring))`; on failure again return the empty string. -/
def Context.lookup (c : Context) (varstring : String) : Value :=
  match c.scope.head?.bind (fun top => scopeFind top varstring) with
  | some v => v
  | Option.none =>
      match pyEvalLiteral varstring with
      | some v => .str (pyStr v)
      | Option.none => .str ""

/-- `class Token`. -/
structure Token where
  type : String
  text : String
deriving DecidableEq

/-- `Token.keyword` = `self.text.split()[0]`; `Option.none` models the
`IndexError` Python raises when the text has no words. -/
def Token.keywordOpt (t : Token) : Option String :=
  (pySplitWs t.text.toList).head?

/-- `Token.keyword` where a first word is known to exist. -/
def Token.keywordD (t : Token) : String :=
  (pySplitWs t.text.toList).headD ""

section Lexer

/-- One entry of the dictionaries built in `Lexer.find_all_tags`. -/
structure TagOcc where
  index : Nat
  tag : String
  ttype : String
  opening : Bool
  expecting : Option String
deriving DecidableEq

/-- All occurrences of the two-character delimiter `ab` found by the
repeated `str.find(tag, cursor)` loop: scanning left to right, stepping
past each match by two characters. -/
def findPairOccs : List Char → Nat → Char → Char → List Nat
  | x :: y :: rest, i, a, b =>
      if x = a ∧ y = b then i :: findPairOccs rest (i + 2) a b
      else findPairOccs (y :: rest) (i + 1) a b
  | _, _, _, _ => []

def mkOpenOccs (tpl : List Char) (a b : Char) (tag expect ttype : String) : List TagOcc :=
  (findPairOccs tpl 0 a b).map fun i =>
    ⟨i, tag, ttype, true, some expect⟩

def mkCloseOccs (tpl : List Char) (a b : Char) (tag ttype : String) : List TagOcc :=
  (findPairOccs tpl 0 a b).map fun i =>
    ⟨i, tag, ttype, false, Option.none⟩

/-- The occurrence lists of all six delimiters, in the order of
`Lexer.all_tags`, before sorting. -/
def allOccs (tpl : List Char) : List TagOcc :=
  mkOpenOccs tpl '\x7b' '#' "\x7b#" "#\x7d" "comment" ++
  mkCloseOccs tpl '#' '\x7d' "#\x7d" "comment" ++
  mkOpenOccs tpl '\x7b' '%' "\x7b%" "%\x7d" "instruction" ++
  mkCloseOccs tpl '%' '\x7d' "%\x7d" "instruction" ++
  mkOpenOccs tpl '\x7b' '\x7b' "\x7b\x7b" "\x7d\x7d" "print" ++
  mkCloseOccs tpl '\x7d' '\x7d' "\x7d\x7d" "print"

/-- `tags.sort(key=lambda x: x["index"])`: stable ascending sort by index
(insertion sort, which is stable and agrees with any stable sort). -/
def sortTags (l : List TagOcc) : List TagOcc :=
  List.insertionSort (fun a b => a.index ≤ b.index) l

/-- The compile-time errors of the source, one constructor per `raise` site. -/
inductive TemplateErr where
  /-- `Template: 연속된 시작 태그` -/
  | consecutiveOpeningTag
  /-- `Template: 종료 태그 없는 시작 태그` -/
  | unterminatedOpeningTag
  /-- `Template: 시작 태그 없는 종료 태그` -/
  | unmatchedClosingTag
  /-- `Template: 시작 태그와 맞지 않는 종료 태그` -/
  | mismatchedClosingTag
  /-- `Template: 올바르지 않은 IF` -/
  | invalidIf
  /-- `Template: 올바르지 않은 FOR` -/
  | invalidFor
  /-- `Template: 누락된 if` -/
  | missingIf
  /-- `Template: 누락된 for` -/
  | missingFor
  /-- `Template: 잘못 짝지어진 제어 구문` -/
  | mismatchedEnd
  /-- `Template: 누락된 {expecting[-1]}` at end of input -/
  | unterminatedBlock (kw : String)
  /-- the `IndexError` from `Token.keyword` on an empty instruction -/
  | indexError
deriving DecidableEq

/-- The validation loop of `Lexer.find_all_tags`: a single-slot
"currently open tag" register (`self.open_close`, which never holds more
than one element).  `rest.isEmpty` is the `i+1 == len(tags)` check, which
the source performs when pushing the final tag. -/
def valLoop : List TagOcc → Option TagOcc → Except TemplateErr Unit
  | [], _ => .ok ()
  | t :: rest, slot =>
      if t.opening then
        match slot with
        | some _ => .error .consecutiveOpeningTag
        | Option.none =>
            if rest.isEmpty then .error .unterminatedOpeningTag
            else valLoop rest (some t)
      else
        match slot with
        | Option.none => .error .unmatchedClosingTag
        | some o =>
            if o.expecting ≠ some t.tag then .error .mismatchedClosingTag
            else valLoop rest Option.none

/-- `Lexer.find_all_tags`. -/
def Lexer.find_all_tags (tpl : String) : Except TemplateErr (List TagOcc) :=
  match valLoop (sortTags (allOccs tpl.toList)) Option.none with
  | .ok _ => .ok (sortTags (allOccs tpl.toList))
  | .error e => .error e

end Lexer

-- quick sanity examples (claims are settled further below)
example : Lexer.find_all_tags "%\x7d" = .error .unmatchedClosingTag := by rfl
example : (Lexer.find_all_tags "\x7b% x %\x7d").isOk = true := by rfl
example : Lexer.find_all_tags "\x7b% x " = .error .unterminatedOpeningTag := by rfl
example : Lexer.find_all_tags "\x7b% x \x7b\x7b" = .error .consecutiveOpeningTag := by rfl
example : Lexer.find_all_tags "\x7b% x #\x7d" = .error .mismatchedClosingTag := by rfl

section Tokenize

/-- Python slice `tpl[a:b]` (clamping, empty when `a ≥ b`). -/
def pySlice (cs : List Char) (a b : Nat) : String :=
  ((cs.drop a).take (b - a)).asString

/-- Python slice `tpl[a:]`. -/
def pySliceFrom (cs : List Char) (a : Nat) : String :=
  (cs.drop a).asString

/-- The token-building loop of `Lexer.tokenize`, one iteration per detected
tag.  Arguments mirror the Python state: `i` is the enumeration index, `n`
the total number of tags (`len(tags)`), `start`/`endv` the slice cursors,
`acc` the `self.tokens` list.  The `i = 0 ∧ 0 < tag.index` branch models the
`continue` of the source: it emits the text before the first tag verbatim
and skips both the opening-tag handling and the trailing-text check. -/
def tokLoop (tplc : List Char) (tplLen : Nat) :
    List TagOcc → Nat → Nat → Nat → Nat → List Token → List Token
  | [], _, _, _, _, acc => acc
  | tag :: rest, i, n, start, endv, acc =>
      if i = 0 ∧ 0 < tag.index then
        tokLoop tplc tplLen rest (i + 1) n tag.index endv
          (acc ++ [⟨"text", pySlice tplc 0 tag.index⟩])
      else
        let st :=
          if tag.opening then
            let acc' :=
              if endv ≠ tag.index then
                let t := pyRstrip (pySlice tplc endv tag.index)
                if t ≠ "" then acc ++ [⟨"text", t⟩] else acc
              else acc
            (tag.index, endv, acc')
          else
            let e2 := tag.index + 2
            let t := pyStrip (pySlice tplc (start + 2) (e2 - 2))
            (start, e2, if tag.ttype ≠ "comment" then acc ++ [⟨tag.ttype, t⟩] else acc)
        let acc2 :=
          if i + 1 = n ∧ tag.index + 2 < tplLen then
            st.2.2 ++ [⟨"text", pySliceFrom tplc (tag.index + 2)⟩]
          else st.2.2
        tokLoop tplc tplLen rest (i + 1) n st.1 st.2.1 acc2

/-- `Lexer.tokenize`. -/
def Lexer.tokenize (tpl : String) : Except TemplateErr (List Token) :=
  match Lexer.find_all_tags tpl with
  | .error e => .error e
  | .ok tags => .ok (tokLoop tpl.toList tpl.length tags 0 tags.length 0 0 [])

end Tokenize

example : Lexer.tokenize "a \x7b\x7bb\x7d\x7d" =
    .ok [⟨"text", "a "⟩, ⟨"print", "b"⟩] := by rfl
example : Lexer.tokenize "\x7b% if x %\x7dA \x7b% endif %\x7d tail" =
    .ok [⟨"instruction", "if x"⟩, ⟨"text", "A"⟩, ⟨"instruction", "endif"⟩,
         ⟨"text", " tail"⟩] := by rfl

section Parse

/-- The abstract syntax tree: one constructor per `Node` subclass of the
source (`node` is the generic `Node` used for the root and for the two
branches of an `IfNode`).  `ifNode` carries the token, `arg_string`,
`true_branch`, `false_branch` and the raw `children` list, in that order. -/
inductive PNode where
  | node : List PNode → PNode
  | textNode : Token → PNode
  | printNode : Token → PNode
  | ifNode : Token → String → PNode → PNode → List PNode → PNode
  | elseNode : Token → List PNode → PNode
  | forNode : Token → String → String → List PNode → PNode

def PNode.tokenOpt : PNode → Option Token
  | .node _ => Option.none
  | .textNode t => some t
  | .printNode t => some t
  | .ifNode t _ _ _ _ => some t
  | .elseNode t _ => some t
  | .forNode t _ _ _ => some t

/-- `child.token.type == 'instruction' and child.token.keyword == kw`
(the keyword access is only reached for instruction tokens, which the
parser guarantees have a first word). -/
def isInstrKw (n : PNode) (kw : String) : Bool :=
  match n.tokenOpt with
  | some t => t.type == "instruction" && t.keywordD == kw
  | Option.none => false

/-- An `elif` marker node together with its token and condition string.
`IfNode.process_children` rebuilds the nested node as `IfNode(child.token)`;
since the marker was itself built from the same token by the same regex,
this equals reusing the marker's stored `arg_string`. -/
def elifTokOf : PNode → Option (Token × String)
  | .ifNode t a _ _ _ =>
      if t.type == "instruction" && t.keywordD == "elif" then some (t, a)
      else Option.none
  | _ => Option.none

/-- The body of `IfNode.process_children` as a functional state machine over
the raw children list.  `inElse = false` means the accumulation target
(`branch` in the source) is `true_branch`, `inElse = true` means it is the
original generic `false_branch`.  Returns the nodes routed to `true_branch`,
those routed to the generic `false_branch`, and the nested `IfNode` built at
the first `elif` marker (which, when present, replaces `false_branch` and
absorbs the whole remainder of the list, exactly as in the source where
`branch` is retargeted to the new node and finally folded recursively by
`branch.process_children()`). -/
def fold2 : Bool → List PNode → List PNode × List PNode × Option PNode
  | _, [] => ([], [], Option.none)
  | inElse, c :: rest =>
      match elifTokOf c with
      | some (t, a) =>
          let r := fold2 false rest
          ([], [],
            some (.ifNode t a (.node r.1)
              (match r.2.2 with
               | some nn => nn
               | Option.none => .node r.2.1) rest))
      | Option.none =>
          if isInstrKw c "else" then fold2 true rest
          else
            let r := fold2 inElse rest
            if inElse then (r.1, c :: r.2.1, r.2.2) else (c :: r.1, r.2.1, r.2.2)

/-- `IfNode.process_children` applied to an `IfNode` with token `tok`,
condition `arg` and raw children `cs`: the folded node keeps its raw
children list and gains its two branches. -/
def foldIfNode (tok : Token) (arg : String) (cs : List PNode) : PNode :=
  let r := fold2 false cs
  .ifNode tok arg (.node r.1)
    (match r.2.2 with
     | some nn => nn
     | Option.none => .node r.2.1) cs

/-- Model of `re.match(r"^kw\s+(.+)$", text)` for the stripped token texts
the parser feeds it (`IfNode.regex_if` / `IfNode.regex_elif`): the text must
start with `kw` followed by at least one whitespace character; the group is
the remainder after the longest whitespace run that leaves a non-empty
group; `.` does not match a newline, so a group containing one fails. -/
def matchKwArg (kw : List Char) (text : String) : Option String :=
  let cs := text.toList
  if cs.take kw.length = kw then
    let rest := cs.drop kw.length
    descend rest ((rest.takeWhile isPyWs).length)
  else Option.none
where
  descend (rest : List Char) : Nat → Option String
  | 0 => Option.none
  | Nat.succ k =>
      let grp := rest.drop (k + 1)
      if grp ≠ [] ∧ '\n' ∉ grp then some grp.asString
      else descend rest k

/-- Model of `re.match(r"^for\s+(.+)\s+in\s+(.+)$", text)`
(`ForNode.regex_for`) for stripped token texts, with the regex engine's
backtracking priorities: the leading `\s+` is longest-first, then group 1 is
longest-first; the `\s+` runs around `in` are forced maximal because `i`/the
following group start with non-whitespace in a stripped text. -/
def matchForArgs (text : String) : Option (String × String) :=
  let cs := text.toList
  if cs.take 3 = ['f', 'o', 'r'] then
    let rest := cs.drop 3
    tryWs rest ((rest.takeWhile isPyWs).length)
  else Option.none
where
  checkTail (tail : List Char) : Option String :=
    let w2 := (tail.takeWhile isPyWs).length
    if w2 = 0 then Option.none
    else
      let t2 := tail.drop w2
      if t2.take 2 = ['i', 'n'] then
        let t3 := t2.drop 2
        let w3 := (t3.takeWhile isPyWs).length
        if w3 = 0 then Option.none
        else
          let grpB := t3.drop w3
          if grpB ≠ [] ∧ '\n' ∉ grpB then some grpB.asString else Option.none
      else Option.none
  tryA (rem : List Char) : Nat → Option (String × String)
  | 0 => Option.none
  | Nat.succ a =>
      let grpA := rem.take (a + 1)
      match checkTail (rem.drop (a + 1)) with
      | some grpB =>
          if grpA ≠ [] ∧ '\n' ∉ grpA then some (grpA.asString, grpB)
          else tryA rem a
      | Option.none => tryA rem a
  tryWs (rest : List Char) : Nat → Option (String × String)
  | 0 => Option.none
  | Nat.succ k =>
      match tryA (rest.drop (k + 1)) (rest.drop (k + 1)).length with
      | some r => some r
      | Option.none => tryWs rest k

/-- `Parser.startwords` -/
def Parser.startwords : List String := ["if", "for"]
/-- `Parser.midwords` -/
def Parser.midwords : List String := ["elif", "else"]
/-- `Parser.endwords` -/
def Parser.endwords : List String := ["endif", "endfor"]

/-- One entry of the parser's stack of open blocks: the root `Node()`, an
open `IfNode` or an open `ForNode`, each with the children accumulated so
far.  In the source the node object is appended to its parent as soon as it
is opened and then mutated; here the finished node is appended when its
block closes, which yields the same final tree. -/
inductive Frame where
  | rootF (acc : List PNode)
  | ifF (tok : Token) (arg : String) (acc : List PNode)
  | forF (tok : Token) (v coll : String) (acc : List PNode)

/-- `stack[-1].children.append(node)` -/
def appendTop : List Frame → PNode → List Frame
  | [], _ => []
  | .rootF acc :: fs, n => .rootF (acc ++ [n]) :: fs
  | .ifF t a acc :: fs, n => .ifF t a (acc ++ [n]) :: fs
  | .forF t v c acc :: fs, n => .forF t v c (acc ++ [n]) :: fs

/-- Closing a block: `stack[-1].process_children()` folds an `IfNode`
(a no-op `pass` for `ForNode`), then the node is complete. -/
def finalizeFrame : Frame → PNode
  | .rootF acc => .node acc
  | .ifF tok arg acc => foldIfNode tok arg acc
  | .forF tok v coll acc => .forNode tok v coll acc

/-- The token loop of `Parser.parse`.  `frames` is the stack of open blocks
(head = `stack[-1]`), `expecting` the stack of expected closing keywords
(head = `expecting[-1]`).  Unknown instruction keywords fall through all
three keyword tests and are skipped.  At end of input, a non-empty
`expecting` stack is the `누락된 {expecting[-1]}` error; otherwise the root
is returned (`finalizeFrame` of a root frame is the plain `Node`). -/
def parseLoop : List Token → List Frame → List String → Except TemplateErr PNode
  | [], frames, expecting =>
      match expecting with
      | e :: _ => .error (.unterminatedBlock e)
      | [] =>
          match frames with
          | f :: _ => .ok (finalizeFrame f)
          | [] => .error .mismatchedEnd
  | tok :: rest, frames, expecting =>
      if tok.type = "text" then
        parseLoop rest (appendTop frames (.textNode tok)) expecting
      else if tok.type = "print" then
        parseLoop rest (appendTop frames (.printNode tok)) expecting
      else if tok.type = "instruction" then
        match tok.keywordOpt with
        | Option.none => .error .indexError
        | some kw =>
            if kw ∈ Parser.startwords then
              if kw = "if" then
                match matchKwArg ['i', 'f'] tok.text with
                | Option.none => .error .invalidIf
                | some arg =>
                    parseLoop rest (.ifF tok arg [] :: frames) ("endif" :: expecting)
              else
                match matchForArgs tok.text with
                | Option.none => .error .invalidFor
                | some (v, c) =>
                    parseLoop rest (.forF tok v c [] :: frames) ("endfor" :: expecting)
            else if kw ∈ Parser.midwords then
              match
                (if kw = "elif" then
                  (matchKwArg ['e', 'l', 'i', 'f'] tok.text).map
                    (fun a => PNode.ifNode tok a (.node []) (.node []) [])
                 else some (.elseNode tok [])) with
              | Option.none => .error .invalidIf
              | some n =>
                  if expecting.isEmpty then .error .missingIf
                  else parseLoop rest (appendTop frames n) expecting
            else if kw ∈ Parser.endwords then
              match expecting with
              | [] => .error (if kw = "endif" then .missingIf else .missingFor)
              | e :: erest =>
                  if e ≠ kw then .error .mismatchedEnd
                  else
                    match frames with
                    | top :: frs => parseLoop rest (appendTop frs (finalizeFrame top)) erest
                    | [] => .error .mismatchedEnd
            else parseLoop rest frames expecting
      else parseLoop rest frames expecting

/-- `Parser.parse` (as called by `Template.__init__`). -/
def Parser.parse (tpl : String) : Except TemplateErr PNode :=
  match Lexer.tokenize tpl with
  | .error e => .error e
  | .ok toks => parseLoop toks [Frame.rootF []] []

end Parse

-- sanity: the parser test cases of the repository's test suite
example : (Parser.parse "\x7b% if True %\x7d\x7b% endif %\x7d\x7b% endif %\x7d").isOk = false := by rfl
example : (Parser.parse "\x7b% if True %\x7d\x7b% if True %\x7d\x7b% endif %\x7d").isOk = false := by rfl
example : (Parser.parse "\x7b% endif %\x7d\x7b% if True %\x7d\x7b% endif %\x7d").isOk = false := by rfl
example : (Parser.parse "\x7b% else %\x7d").isOk = false := by rfl
example : (Parser.parse "\x7b% if True %\x7d").isOk = false := by rfl
example : (Parser.parse "\x7b% for item in items %\x7d").isOk = false := by rfl
example : (Parser.parse "\x7b% if True %\x7dA\x7b% endif %\x7d").isOk = true := by rfl

section Render

/-- The run-time exceptions rendering can raise. -/
inductive RenderErr where
  /-- `NameError` (etc.) from the unguarded `eval(self.arg_string)` in
  `IfNode.render`; carries the condition string -/
  | nameError (expr : String)
  /-- `TypeError` from `"".join(...)` over a non-string item -/
  | typeError
  /-- `IndexError` from `context.local` on an empty scope stack -/
  | indexError
deriving DecidableEq

/-- Scope-stack operations performed during rendering, recorded as a trace
so that push/pop pairing can be stated. -/
inductive ScopeEvent where
  | push
  | pop
  | bindE (name : String)
deriving DecidableEq

/-- Modelled from the spec: evaluation of an `if`/`elif` condition.
`IfNode.render` copies the current scope (`context.local`) into the local
namespace and runs the external evaluator (`eval`) on the condition, then
takes Python truthiness of the result; per §4.6 an identifier bound in the
current scope resolves to its value, otherwise the expression is evaluated
as a literal of the restricted sub-language; anything else raises
(`Option.none` here), since `IfNode.render` has no exception handler. -/
def evalCondTop (top : PyScope) (arg : String) : Option Bool :=
  match scopeFind top arg with
  | some v => some (pyTruthy v)
  | Option.none => (pyEvalLiteral arg).map pyTruthy

/-- The type-checking concatenation pass of `"".join(items)`: the items were
all produced before the join runs; the first non-string item raises
`TypeError`. -/
def joinVals : List Value → Except RenderErr String
  | [] => .ok ""
  | .str s :: rest => (joinVals rest).map (fun t => s ++ t)
  | _ :: _ => .error .typeError

/-- Result of rendering one node: the Python return value (a `Value`, since
`PrintNode.render` can return a non-string), the context after the call and
the trace of scope operations. -/
abbrev RndRes := (Except RenderErr Value) × Context × List ScopeEvent

/-- Result of rendering a children list (the values to be joined). -/
abbrev SeqRes := (Except RenderErr (List Value)) × Context × List ScopeEvent

/-- Result of the `for item in collection` loop (the per-iteration outputs). -/
abbrev LoopRes := (Except RenderErr (List String)) × Context × List ScopeEvent

/-- The loop of `ForNode.render`, for a given body renderer: per item, bind
the loop variable in the current (pushed) scope, render the children, join
the result (`output.append("".join(...))`); an exception propagates
immediately. -/
def renderLoopWith (body : Context → SeqRes) (v : String) : List Value → Context → LoopRes
  | [], c => (.ok [], c, [])
  | it :: its, c =>
      let c1 := c.bind v it
      match body c1 with
      | (.ok vs, c2, e1) =>
          match joinVals vs with
          | .ok s =>
              match renderLoopWith body v its c2 with
              | (.ok ss, c3, e2) => (.ok (s :: ss), c3, (.bindE v :: e1) ++ e2)
              | (.error e, c3, e2) => (.error e, c3, (.bindE v :: e1) ++ e2)
          | .error e => (.error e, c2, .bindE v :: e1)
      | (.error e, c2, e1) => (.error e, c2, .bindE v :: e1)

/-! `Node.render` and its overrides.  The source is mutually recursive in a
way Lean's structural recursion cannot express directly (the `for` loop
re-renders the same children once per item), so the renderer is
parameterised by the function `fb` used to render a `for` node's body, and
the knot is tied below by `renderBodyFuel`, with fuel the `for`-nesting
depth of the tree; `renderNode_eq_forNode` and its siblings recover exactly
the source's recursive equations.

* `node`/`elseNode`: `"".join(child.render(context) for child in children)`
  (all children render first, the join then type-checks the items);
* `textNode`: the literal token text;
* `printNode`: `context.lookup(self.token.text)` (total, never raises);
* `ifNode`: evaluates the condition against `context.local` (raising
  `IndexError` on an empty stack and `NameError` when the condition cannot
  be evaluated), then renders `true_branch` or `false_branch`;
* `forNode`: looks up the collection; when iterable, pushes one scope,
  binds the loop variable and renders the children once per item, pops the
  scope after the loop; an exception inside the loop propagates without the
  pop.  When not iterable, returns the empty string. -/
mutual

def renderNodeWith (fb : List PNode → Context → SeqRes) : PNode → Context → RndRes
  | .node ch, c =>
      match renderSeqWith fb ch c with
      | (.ok vs, c1, evs) => ((joinVals vs).map .str, c1, evs)
      | (.error e, c1, evs) => (.error e, c1, evs)
  | .textNode tok, c => (.ok (.str tok.text), c, [])
  | .printNode tok, c => (.ok (Context.lookup c tok.text), c, [])
  | .elseNode _ ch, c =>
      match renderSeqWith fb ch c with
      | (.ok vs, c1, evs) => ((joinVals vs).map .str, c1, evs)
      | (.error e, c1, evs) => (.error e, c1, evs)
  | .ifNode _ arg tb fbr _, c =>
      match c.scope.head? with
      | Option.none => (.error .indexError, c, [])
      | some top =>
          match evalCondTop top arg with
          | Option.none => (.error (.nameError arg), c, [])
          | some b => if b then renderNodeWith fb tb c else renderNodeWith fb fbr c
  | .forNode _ v coll ch, c =>
      let cv := Context.lookup c coll
      if isIterable cv then
        match renderLoopWith (fb ch) v (iterItems cv) c.push with
        | (.ok outs, c2, evs) =>
            (.ok (.str (String.join outs)), c2.pop, .push :: (evs ++ [.pop]))
        | (.error e, c2, evs) => (.error e, c2, .push :: evs)
      else (.ok (.str ""), c, [])

def renderSeqWith (fb : List PNode → Context → SeqRes) : List PNode → Context → SeqRes
  | [], c => (.ok [], c, [])
  | n :: rest, c =>
      match renderNodeWith fb n c with
      | (.ok v, c1, e1) =>
          match renderSeqWith fb rest c1 with
          | (.ok vs, c2, e2) => (.ok (v :: vs), c2, e1 ++ e2)
          | (.error e, c2, e2) => (.error e, c2, e1 ++ e2)
      | (.error e, c1, e1) => (.error e, c1, e1)

end

/-! The `for`-nesting depth of a tree: how many levels of `forNode` bodies
can be entered while rendering.  This bounds the fuel `renderBodyFuel`
needs; any fuel at least this deep gives the same result
(`renderSeqWith_fuel_stable`). -/
mutual

def forDepthN : PNode → Nat
  | .node ch => forDepthS ch
  | .textNode _ => 0
  | .printNode _ => 0
  | .elseNode _ ch => forDepthS ch
  | .ifNode _ _ tb fbr ch => max (forDepthN tb) (max (forDepthN fbr) (forDepthS ch))
  | .forNode _ _ _ ch => forDepthS ch + 1

def forDepthS : List PNode → Nat
  | [] => 0
  | n :: rest => max (forDepthN n) (forDepthS rest)

end

/-- Ties the renderer's knot: with positive fuel, a `for` body is rendered
by the full renderer at one less fuel.  The fuel-0 default is never reached
when the fuel bounds the `for`-nesting depth. -/
def renderBodyFuel : Nat → List PNode → Context → SeqRes
  | 0, _, c => (.ok [], c, [])
  | d + 1, ch, c => renderSeqWith (renderBodyFuel d) ch c

/-- `Node.render` (and subclasses): the renderer with adequate fuel. -/
def renderNode (n : PNode) (c : Context) : RndRes :=
  renderNodeWith (renderBodyFuel (forDepthN n)) n c

/-- Rendering of a children list. -/
def renderSeq (l : List PNode) (c : Context) : SeqRes :=
  renderSeqWith (renderBodyFuel (forDepthS l)) l c

/-- The `for` loop of `ForNode.render` with the body rendered by the full
renderer. -/
def renderLoop (ch : List PNode) (v : String) (items : List Value) (c : Context) : LoopRes :=
  renderLoopWith (renderSeq ch) v items c

/-- Mutual structural induction over the tree and its children lists
(the nested recursor, applied with both motives explicit). -/
theorem renderLoopWith_congr {b1 b2 : Context → SeqRes} (v : String)
    (H : ∀ c, b1 c = b2 c) :
    ∀ items c, renderLoopWith b1 v items c = renderLoopWith b2 v items c := by
  intro items
  induction items with
  | nil => intro c; rfl
  | cons it its ih =>
      intro c
      simp only [renderLoopWith, H, ih]

/-- Fuel-stability статья for a single node. -/
def StableN (n : PNode) : Prop :=
  ∀ c d d', forDepthN n ≤ d → forDepthN n ≤ d' →
    renderNodeWith (renderBodyFuel d) n c = renderNodeWith (renderBodyFuel d') n c

/-- Fuel-stability statement for a children list. -/
def StableS (l : List PNode) : Prop :=
  ∀ c d d', forDepthS l ≤ d → forDepthS l ≤ d' →
    renderSeqWith (renderBodyFuel d) l c = renderSeqWith (renderBodyFuel d') l c

theorem stable_node (ch : List PNode) (ih : StableS ch) : StableN (.node ch) := by
  intro c d d' hd hd'
  simp only [forDepthN] at hd hd'
  simp only [renderNodeWith, ih c d d' hd hd']

theorem stable_text (t : Token) : StableN (.textNode t) := by
  intro c d d' _ _; rfl

theorem stable_print (t : Token) : StableN (.printNode t) := by
  intro c d d' _ _; rfl

theorem stable_if (t : Token) (a : String) (tb fbr : PNode) (ch : List PNode)
    (ih1 : StableN tb) (ih2 : StableN fbr) (_ : StableS ch) :
    StableN (.ifNode t a tb fbr ch) := by
  intro c d d' hd hd'
  simp only [forDepthN] at hd hd'
  cases hs : c.scope.head? with
  | none => simp only [renderNodeWith, hs]
  | some top =>
      cases he : evalCondTop top a with
      | none => simp only [renderNodeWith, hs, he]
      | some b =>
          cases b with
          | true =>
              simp only [renderNodeWith, hs, he, if_true]
              exact ih1 c d d' (by omega) (by omega)
          | false =>
              simp only [renderNodeWith, hs, he, if_false]
              exact ih2 c d d' (by omega) (by omega)

theorem stable_else (t : Token) (ch : List PNode) (ih : StableS ch) :
    StableN (.elseNode t ch) := by
  intro c d d' hd hd'
  simp only [forDepthN] at hd hd'
  simp only [renderNodeWith, ih c d d' hd hd']

theorem stable_for (t : Token) (v coll : String) (ch : List PNode)
    (ih : StableS ch) : StableN (.forNode t v coll ch) := by
  intro c d d' hd hd'
  simp only [forDepthN] at hd hd'
  obtain ⟨e, rfl⟩ : ∃ e, d = e + 1 := ⟨d - 1, by omega⟩
  obtain ⟨e', rfl⟩ : ∃ e', d' = e' + 1 := ⟨d' - 1, by omega⟩
  simp only [renderNodeWith]
  rw [renderLoopWith_congr v
        (fun c0 => show renderBodyFuel (e + 1) ch c0 = renderBodyFuel (e' + 1) ch c0 from
          ih c0 e e' (by omega) (by omega))]

theorem stable_nil : StableS [] := by
  intro c d d' _ _; rfl

theorem stable_cons (n : PNode) (rest : List PNode)
    (ih1 : StableN n) (ih2 : StableS rest) : StableS (n :: rest) := by
  intro c d d' hd hd'
  simp only [forDepthS] at hd hd'
  simp only [renderSeqWith]
  rw [ih1 c d d' (by omega) (by omega)]
  cases renderNodeWith (renderBodyFuel d') n c with
  | mk r s =>
      cases r with
      | ok v =>
          cases s with
          | mk c1 e1 =>
              dsimp only
              rw [ih2 c1 d d' (by omega) (by omega)]
      | error e => rfl

theorem render_stable_N : ∀ n : PNode, StableN n :=
  @PNode.rec StableN StableS
    stable_node stable_text stable_print stable_if stable_else stable_for
    stable_nil stable_cons

theorem render_stable_S : ∀ l : List PNode, StableS l :=
  @PNode.rec_1 StableN StableS
    stable_node stable_text stable_print stable_if stable_else stable_for
    stable_nil stable_cons

/-- With any adequate fuel, the parameterised renderer computes
`renderNode`. -/
theorem renderNodeWith_fuel (n : PNode) (c : Context) (d : Nat)
    (h : forDepthN n ≤ d) :
    renderNodeWith (renderBodyFuel d) n c = renderNode n c :=
  render_stable_N n c d (forDepthN n) h (Nat.le_refl _)

/-- With any adequate fuel, the parameterised renderer computes
`renderSeq`. -/
theorem renderSeqWith_fuel (l : List PNode) (c : Context) (d : Nat)
    (h : forDepthS l ≤ d) :
    renderSeqWith (renderBodyFuel d) l c = renderSeq l c :=
  render_stable_S l c d (forDepthS l) h (Nat.le_refl _)

/-! The recursive equations of the source's `render` methods, now in terms
of the fuel-free `renderNode`/`renderSeq`/`renderLoop`. -/

theorem renderSeq_nil (c : Context) : renderSeq [] c = (.ok [], c, []) := rfl

theorem renderSeq_cons (n : PNode) (rest : List PNode) (c : Context) :
    renderSeq (n :: rest) c =
      match renderNode n c with
      | (.ok v, c1, e1) =>
          (match renderSeq rest c1 with
           | (.ok vs, c2, e2) => (.ok (v :: vs), c2, e1 ++ e2)
           | (.error e, c2, e2) => (.error e, c2, e1 ++ e2))
      | (.error e, c1, e1) => (.error e, c1, e1) := by
  show renderSeqWith (renderBodyFuel (forDepthS (n :: rest))) (n :: rest) c = _
  simp only [renderSeqWith]
  rw [renderNodeWith_fuel n c _ (by simp only [forDepthS]; omega)]
  cases renderNode n c with
  | mk r s =>
      cases r with
      | ok v =>
          cases s with
          | mk c1 e1 =>
              dsimp only
              rw [renderSeqWith_fuel rest c1 _ (by simp only [forDepthS]; omega)]
      | error e => rfl

theorem renderNode_text (t : Token) (c : Context) :
    renderNode (.textNode t) c = (.ok (.str t.text), c, []) := rfl

theorem renderNode_print (t : Token) (c : Context) :
    renderNode (.printNode t) c = (.ok (Context.lookup c t.text), c, []) := rfl

theorem renderNode_node (ch : List PNode) (c : Context) :
    renderNode (.node ch) c =
      match renderSeq ch c with
      | (.ok vs, c1, evs) => ((joinVals vs).map .str, c1, evs)
      | (.error e, c1, evs) => (.error e, c1, evs) := rfl

theorem renderNode_else (t : Token) (ch : List PNode) (c : Context) :
    renderNode (.elseNode t ch) c =
      match renderSeq ch c with
      | (.ok vs, c1, evs) => ((joinVals vs).map .str, c1, evs)
      | (.error e, c1, evs) => (.error e, c1, evs) := rfl

theorem renderNode_if (t : Token) (a : String) (tb fbr : PNode)
    (ch : List PNode) (c : Context) :
    renderNode (.ifNode t a tb fbr ch) c =
      match c.scope.head? with
      | Option.none => (.error .indexError, c, [])
      | some top =>
          match evalCondTop top a with
          | Option.none => (.error (.nameError a), c, [])
          | some b => if b then renderNode tb c else renderNode fbr c := by
  show renderNodeWith (renderBodyFuel (forDepthN (.ifNode t a tb fbr ch))) _ c = _
  cases hs : c.scope.head? with
  | none => simp only [renderNodeWith, hs]
  | some top =>
      cases he : evalCondTop top a with
      | none => simp only [renderNodeWith, hs, he]
      | some b =>
          cases b with
          | true =>
              simp only [renderNodeWith, hs, he, if_true]
              exact renderNodeWith_fuel tb c _ (by simp only [forDepthN]; omega)
          | false =>
              simp only [renderNodeWith, hs, he, if_false]
              exact renderNodeWith_fuel fbr c _ (by simp only [forDepthN]; omega)

theorem renderNode_for (t : Token) (v coll : String) (ch : List PNode)
    (c : Context) :
    renderNode (.forNode t v coll ch) c =
      (if isIterable (Context.lookup c coll) then
        match renderLoop ch v (iterItems (Context.lookup c coll)) c.push with
        | (.ok outs, c2, evs) =>
            (.ok (.str (String.join outs)), c2.pop, .push :: (evs ++ [.pop]))
        | (.error e, c2, evs) => (.error e, c2, .push :: evs)
      else (.ok (.str ""), c, [])) := rfl

/-! Invariants of rendering: a successful render restores the context and
balances scope pushes against pops; a failing render raises only the
`NameError` of an unevaluable `if` condition or the `TypeError` of joining a
non-string value (given a non-empty scope stack, which `Context.__init__`
guarantees). -/

def isPushEv : ScopeEvent → Bool
  | .push => true
  | _ => false

def isPopEv : ScopeEvent → Bool
  | .pop => true
  | _ => false

def countPush (l : List ScopeEvent) : Nat := (l.filter isPushEv).length

def countPop (l : List ScopeEvent) : Nat := (l.filter isPopEv).length

theorem countPush_append (a b : List ScopeEvent) :
    countPush (a ++ b) = countPush a + countPush b := by
  simp [countPush, List.filter_append]

theorem countPop_append (a b : List ScopeEvent) :
    countPop (a ++ b) = countPop a + countPop b := by
  simp [countPop, List.filter_append]

theorem joinVals_error (vs : List Value) (e : RenderErr)
    (h : joinVals vs = .error e) : e = .typeError := by
  induction vs with
  | nil => simp [joinVals] at h
  | cons v rest ih =>
      cases v with
      | str s =>
          simp only [joinVals] at h
          cases hr : joinVals rest with
          | ok t => rw [hr] at h; simp [Except.map] at h
          | error e' => rw [hr] at h; simp [Except.map] at h; exact ih (hr.trans (by rw [h]))
      | bool b => simp only [joinVals] at h; exact (Except.error.injEq .. ▸ h).symm ▸ rfl
      | int n => simp only [joinVals] at h; cases h; rfl
      | list l => simp only [joinVals] at h; cases h; rfl
      | none => simp only [joinVals] at h; cases h; rfl

/-- The good-behaviour invariant for one node. -/
def GoodN (n : PNode) : Prop :=
  (∀ c v c' evs, renderNode n c = (.ok v, c', evs) →
      c' = c ∧ countPush evs = countPop evs) ∧
  (∀ c e c' evs, c.scope ≠ [] → renderNode n c = (.error e, c', evs) →
      (∃ s, e = .nameError s) ∨ e = .typeError)

/-- The good-behaviour invariant for a children list. -/
def GoodS (l : List PNode) : Prop :=
  (∀ c vs c' evs, renderSeq l c = (.ok vs, c', evs) →
      c' = c ∧ countPush evs = countPop evs) ∧
  (∀ c e c' evs, c.scope ≠ [] → renderSeq l c = (.error e, c', evs) →
      (∃ s, e = .nameError s) ∨ e = .typeError)

theorem countPush_cons_bind (v : String) (l : List ScopeEvent) :
    countPush (.bindE v :: l) = countPush l := rfl

theorem countPop_cons_bind (v : String) (l : List ScopeEvent) :
    countPop (.bindE v :: l) = countPop l := rfl

theorem good_loop (ch : List PNode) (v : String) (H : GoodS ch) :
    ∀ (items : List Value) (t0 : PyScope) (rest : List PyScope),
      (∀ ss c3 evs, renderLoopWith (renderSeq ch) v items ⟨t0 :: rest⟩ = (.ok ss, c3, evs) →
          (∃ t3, c3 = ⟨t3 :: rest⟩) ∧ countPush evs = countPop evs) ∧
      (∀ e c3 evs, renderLoopWith (renderSeq ch) v items ⟨t0 :: rest⟩ = (.error e, c3, evs) →
          (∃ s, e = .nameError s) ∨ e = .typeError) := by
  intro items
  induction items with
  | nil =>
      intro t0 rest
      constructor
      · intro ss c3 evs h
        simp only [renderLoopWith, Prod.mk.injEq] at h
        obtain ⟨-, h2, h3⟩ := h
        exact ⟨⟨t0, h2.symm⟩, by rw [← h3]; rfl⟩
      · intro e c3 evs h
        simp only [renderLoopWith, Prod.mk.injEq] at h
        exact absurd h.1 (by simp)
  | cons it its ih =>
      intro t0 rest
      have hbind : (Context.bind ⟨t0 :: rest⟩ v it) = ⟨scopeBind t0 v it :: rest⟩ := rfl
      constructor
      · intro ss c3 evs h
        simp only [renderLoopWith, hbind] at h
        split at h
        next vs c2 e1 hb =>
            obtain ⟨hc2, hev⟩ := H.1 _ _ _ _ hb
            subst hc2
            split at h
            next s0 hj =>
                split at h
                next ss' c3x e2 hl =>
                    simp only [Prod.mk.injEq, Except.ok.injEq] at h
                    obtain ⟨-, h2, h3⟩ := h
                    subst h2
                    obtain ⟨hex, hbal⟩ := (ih (scopeBind t0 v it) rest).1 ss' c3x e2 hl
                    refine ⟨hex, ?_⟩
                    rw [← h3]
                    simp only [countPush, countPop, isPushEv, isPopEv, List.filter,
                      List.append_eq, List.filter_append, List.length_append] at hev hbal ⊢
                    omega
                next e' c3x e2 hl => simp at h
            next ej hj => simp at h
        next e' c2 e1 hb => simp at h
      · intro e c3 evs h
        simp only [renderLoopWith, hbind] at h
        split at h
        next vs c2 e1 hb =>
            obtain ⟨hc2, -⟩ := H.1 _ _ _ _ hb
            subst hc2
            split at h
            next s0 hj =>
                split at h
                next ss' c3x e2 hl => simp at h
                next e' c3x e2 hl =>
                    simp only [Prod.mk.injEq, Except.error.injEq] at h
                    obtain ⟨h1, -, -⟩ := h
                    subst h1
                    exact (ih (scopeBind t0 v it) rest).2 _ c3x e2 hl
            next ej hj =>
                simp only [Prod.mk.injEq, Except.error.injEq] at h
                obtain ⟨h1, -, -⟩ := h
                subst h1
                exact Or.inr (joinVals_error vs _ hj)
        next e' c2 e1 hb =>
            simp only [Prod.mk.injEq, Except.error.injEq] at h
            obtain ⟨h1, -, -⟩ := h
            subst h1
            exact H.2 _ _ _ _ (by simp) hb

theorem good_node (ch : List PNode) (ih : GoodS ch) : GoodN (.node ch) := by
  constructor
  · intro c v c' evs h
    rw [renderNode_node] at h
    split at h
    next vs c1 evs1 hs =>
        cases hj : joinVals vs with
        | ok s => rw [hj] at h; simp only [Except.map, Prod.mk.injEq] at h
                  obtain ⟨-, h2, h3⟩ := h
                  subst h2; subst h3
                  exact ih.1 _ _ _ _ hs
        | error e => rw [hj] at h; simp [Except.map] at h
    next e c1 evs1 hs => simp at h
  · intro c e c' evs hne h
    rw [renderNode_node] at h
    split at h
    next vs c1 evs1 hs =>
        cases hj : joinVals vs with
        | ok s => rw [hj] at h; simp [Except.map] at h
        | error e' =>
            rw [hj] at h; simp only [Except.map, Prod.mk.injEq, Except.error.injEq] at h
            obtain ⟨h1, -, -⟩ := h
            subst h1
            exact Or.inr (joinVals_error vs _ hj)
    next e' c1 evs1 hs =>
        simp only [Prod.mk.injEq, Except.error.injEq] at h
        obtain ⟨h1, -, -⟩ := h
        subst h1
        exact ih.2 _ _ _ _ hne hs

theorem good_text (t : Token) : GoodN (.textNode t) := by
  constructor
  · intro c v c' evs h
    rw [renderNode_text] at h
    simp only [Prod.mk.injEq] at h
    obtain ⟨-, h2, h3⟩ := h
    subst h2; subst h3
    exact ⟨rfl, rfl⟩
  · intro c e c' evs _ h
    rw [renderNode_text] at h
    simp at h

theorem good_print (t : Token) : GoodN (.printNode t) := by
  constructor
  · intro c v c' evs h
    rw [renderNode_print] at h
    simp only [Prod.mk.injEq] at h
    obtain ⟨-, h2, h3⟩ := h
    subst h2; subst h3
    exact ⟨rfl, rfl⟩
  · intro c e c' evs _ h
    rw [renderNode_print] at h
    simp at h

theorem good_if (t : Token) (a : String) (tb fbr : PNode) (ch : List PNode)
    (ih1 : GoodN tb) (ih2 : GoodN fbr) (_ : GoodS ch) :
    GoodN (.ifNode t a tb fbr ch) := by
  constructor
  · intro c v c' evs h
    rw [renderNode_if] at h
    split at h
    next => simp at h
    next top hs =>
        split at h
        next => simp at h
        next b he =>
            cases b with
            | true => rw [if_pos rfl] at h; exact ih1.1 _ _ _ _ h
            | false => rw [if_neg (by decide)] at h; exact ih2.1 _ _ _ _ h
  · intro c e c' evs hne h
    rw [renderNode_if] at h
    split at h
    next hs =>
        exact absurd (List.head?_eq_none_iff.mp hs) hne
    next top hs =>
        split at h
        next he =>
            simp only [Prod.mk.injEq, Except.error.injEq] at h
            obtain ⟨h1, -, -⟩ := h
            subst h1
            exact Or.inl ⟨a, rfl⟩
        next b he =>
            cases b with
            | true => rw [if_pos rfl] at h; exact ih1.2 _ _ _ _ hne h
            | false => rw [if_neg (by decide)] at h; exact ih2.2 _ _ _ _ hne h

theorem good_else (t : Token) (ch : List PNode) (ih : GoodS ch) :
    GoodN (.elseNode t ch) := by
  constructor
  · intro c v c' evs h
    rw [renderNode_else] at h
    split at h
    next vs c1 evs1 hs =>
        cases hj : joinVals vs with
        | ok s => rw [hj] at h; simp only [Except.map, Prod.mk.injEq] at h
                  obtain ⟨-, h2, h3⟩ := h
                  subst h2; subst h3
                  exact ih.1 _ _ _ _ hs
        | error e => rw [hj] at h; simp [Except.map] at h
    next e c1 evs1 hs => simp at h
  · intro c e c' evs hne h
    rw [renderNode_else] at h
    split at h
    next vs c1 evs1 hs =>
        cases hj : joinVals vs with
        | ok s => rw [hj] at h; simp [Except.map] at h
        | error e' =>
            rw [hj] at h; simp only [Except.map, Prod.mk.injEq, Except.error.injEq] at h
            obtain ⟨h1, -, -⟩ := h
            subst h1
            exact Or.inr (joinVals_error vs _ hj)
    next e' c1 evs1 hs =>
        simp only [Prod.mk.injEq, Except.error.injEq] at h
        obtain ⟨h1, -, -⟩ := h
        subst h1
        exact ih.2 _ _ _ _ hne hs

theorem good_for (t : Token) (v coll : String) (ch : List PNode)
    (ih : GoodS ch) : GoodN (.forNode t v coll ch) := by
  constructor
  · intro c v0 c' evs h
    rw [renderNode_for] at h
    split at h
    · split at h
      next outs c2 evs2 hl =>
          simp only [Prod.mk.injEq] at h
          obtain ⟨-, h2, h3⟩ := h
          subst h2; subst h3
          have hpush : c.push = (⟨[] :: c.scope⟩ : Context) := rfl
          rw [hpush] at hl
          obtain ⟨⟨t3, hc2⟩, hbal⟩ := (good_loop ch v ih (iterItems (Context.lookup c coll)) [] c.scope).1 outs c2 evs2 hl
          subst hc2
          refine ⟨rfl, ?_⟩
          simp only [countPush, countPop, isPushEv, isPopEv, List.filter,
            List.append_eq, List.filter_append, List.length_append, List.length_cons,
            List.length_nil, List.append_nil] at hbal ⊢
          omega
      next e c2 evs2 hl => simp at h
    · simp only [Prod.mk.injEq] at h
      obtain ⟨-, h2, h3⟩ := h
      subst h2; subst h3
      exact ⟨rfl, rfl⟩
  · intro c e c' evs hne h
    rw [renderNode_for] at h
    split at h
    · split at h
      next outs c2 evs2 hl => simp at h
      next e' c2 evs2 hl =>
          simp only [Prod.mk.injEq, Except.error.injEq] at h
          obtain ⟨h1, -, -⟩ := h
          subst h1
          have hpush : c.push = (⟨[] :: c.scope⟩ : Context) := rfl
          rw [hpush] at hl
          exact (good_loop ch v ih (iterItems (Context.lookup c coll)) [] c.scope).2 _ c2 evs2 hl
    · simp at h

theorem good_nil : GoodS [] := by
  constructor
  · intro c vs c' evs h
    rw [renderSeq_nil] at h
    simp only [Prod.mk.injEq] at h
    obtain ⟨-, h2, h3⟩ := h
    subst h2; subst h3
    exact ⟨rfl, rfl⟩
  · intro c e c' evs _ h
    rw [renderSeq_nil] at h
    simp at h

theorem good_cons (n : PNode) (rest : List PNode)
    (ih1 : GoodN n) (ih2 : GoodS rest) : GoodS (n :: rest) := by
  constructor
  · intro c vs c' evs h
    rw [renderSeq_cons] at h
    split at h
    next v c1 e1 hn =>
        obtain ⟨hc1, he1⟩ := ih1.1 _ _ _ _ hn
        subst hc1
        split at h
        next vs2 c2 e2 hs =>
            simp only [Prod.mk.injEq, Except.ok.injEq] at h
            obtain ⟨-, h2, h3⟩ := h
            subst h2
            obtain ⟨hc2, he2⟩ := ih2.1 _ _ _ _ hs
            refine ⟨hc2, ?_⟩
            rw [← h3]
            simp only [countPush, countPop, List.filter_append, List.length_append]
            simp only [countPush, countPop] at he1 he2
            omega
        next e2 c2 ee2 hs => simp at h
    next e' c1 e1 hn => simp at h
  · intro c e c' evs hne h
    rw [renderSeq_cons] at h
    split at h
    next v c1 e1 hn =>
        obtain ⟨hc1, -⟩ := ih1.1 _ _ _ _ hn
        subst hc1
        split at h
        next vs2 c2 e2 hs => simp at h
        next e2 c2 ee2 hs =>
            simp only [Prod.mk.injEq, Except.error.injEq] at h
            obtain ⟨h1, -, -⟩ := h
            subst h1
            exact ih2.2 _ _ _ _ hne hs
    next e' c1 e1 hn =>
        simp only [Prod.mk.injEq, Except.error.injEq] at h
        obtain ⟨h1, -, -⟩ := h
        subst h1
        exact ih1.2 _ _ _ _ hne hn

theorem goodN_all : ∀ n : PNode, GoodN n :=
  @PNode.rec GoodN GoodS
    good_node good_text good_print good_if good_else good_for good_nil good_cons

theorem goodS_all : ∀ l : List PNode, GoodS l :=
  @PNode.rec_1 GoodN GoodS
    good_node good_text good_print good_if good_else good_for good_nil good_cons

end Render

section ElifChains

/-- A node that `process_children` treats as plain content: neither an
`elif` marker nor an `else` marker. -/
def isChainContent (n : PNode) : Bool :=
  (elifTokOf n).isNone && !(isInstrKw n "else")

/-- An `elif` marker node as the parser creates it. -/
def mkElifMarker (t : Token) (a : String) : PNode :=
  .ifNode t a (.node []) (.node []) []

/-- One link of an `if/elif/.../else/endif` chain: the `elif` token, its
condition string, the truth value the condition evaluates to, and its body. -/
abbrev ChainLink := Token × String × Bool × List PNode

/-- The raw children list an `If` block's chain produces during parsing:
the `if` body, then for each `elif` its marker followed by its body, then
optionally the `else` marker followed by the `else` body. -/
def chainChildren (b0 : List PNode) (elifs : List ChainLink)
    (elseB : Option (Token × List PNode)) : List PNode :=
  b0 ++
    (elifs.flatMap fun l => mkElifMarker l.1 l.2.1 :: l.2.2.2) ++
    (match elseB with
     | some (t, be) => PNode.elseNode t [] :: be
     | Option.none => [])

def elseBody : Option (Token × List PNode) → List PNode
  | some (_, be) => be
  | Option.none => []

/-- The right-leaning `If` chain that folding is expected to build. -/
def chainFolded (tok : Token) (a : String) (b0 : List PNode)
    (elifs : List ChainLink) (elseB : Option (Token × List PNode)) : PNode :=
  match elifs with
  | [] => .ifNode tok a (.node b0) (.node (elseBody elseB)) (chainChildren b0 [] elseB)
  | (t1, a1, bv1, b1) :: rest =>
      .ifNode tok a (.node b0) (chainFolded t1 a1 b1 rest elseB)
        (chainChildren b0 ((t1, a1, bv1, b1) :: rest) elseB)

/-- `fold2` passes over plain content, accumulating it on the side the
current mode selects. -/
theorem fold2_content (inElse : Bool) (n : PNode) (l : List PNode)
    (hn : isChainContent n = true) :
    fold2 inElse (n :: l) =
      (let r := fold2 inElse l
       if inElse then (r.1, n :: r.2.1, r.2.2) else (n :: r.1, r.2.1, r.2.2)) := by
  simp only [isChainContent, Bool.and_eq_true, Option.isNone_iff_eq_none,
    Bool.not_eq_true'] at hn
  obtain ⟨h1, h2⟩ := hn
  simp only [fold2, h1, h2, Bool.false_eq_true, if_false]

theorem fold2_content_front (b0 : List PNode) (tail : List PNode)
    (hb : ∀ n ∈ b0, isChainContent n = true) :
    fold2 false (b0 ++ tail) =
      ((b0 ++ (fold2 false tail).1, (fold2 false tail).2.1, (fold2 false tail).2.2)) := by
  induction b0 with
  | nil => simp
  | cons n rest ih =>
      rw [List.cons_append, fold2_content false n (rest ++ tail) (hb n (by simp))]
      rw [ih (fun m hm => hb m (by simp [hm]))]
      simp

theorem fold2_else_content (be : List PNode)
    (hb : ∀ n ∈ be, isChainContent n = true) :
    fold2 true be = ([], be, Option.none) := by
  induction be with
  | nil => rfl
  | cons n rest ih =>
      rw [fold2_content true n rest (hb n (by simp))]
      rw [ih (fun m hm => hb m (List.mem_cons_of_mem _ hm))]
      simp

theorem fold2_content_all (b0 : List PNode)
    (hb : ∀ n ∈ b0, isChainContent n = true) :
    fold2 false b0 = (b0, [], Option.none) := by
  have h := fold2_content_front b0 [] hb
  rw [show fold2 false [] = ([], [], Option.none) from rfl] at h
  simpa using h

theorem fold2_else_marker (t : Token) (be : List PNode)
    (ht : t.type = "instruction" ∧ t.keywordD = "else") :
    fold2 false (PNode.elseNode t [] :: be) = fold2 true be := by
  have h1 : elifTokOf (.elseNode t []) = Option.none := rfl
  have h2 : isInstrKw (.elseNode t []) "else" = true := by
    simp [isInstrKw, PNode.tokenOpt, ht.1, ht.2]
  simp only [fold2, h1, h2, if_true]

theorem fold2_elif_marker (t : Token) (a : String) (tail : List PNode)
    (ht : t.type = "instruction" ∧ t.keywordD = "elif") :
    fold2 false (mkElifMarker t a :: tail) =
      ([], [],
        some (.ifNode t a (.node (fold2 false tail).1)
          (match (fold2 false tail).2.2 with
           | some nn => nn
           | Option.none => .node (fold2 false tail).2.1) tail)) := by
  have h1 : elifTokOf (mkElifMarker t a) = some (t, a) := by
    simp [elifTokOf, mkElifMarker, ht.1, ht.2]
  simp only [fold2, h1]

/-- Well-formedness of a chain: all bodies are plain content and all marker
tokens are instruction tokens with the right keyword. -/
def ChainWf (b0 : List PNode) (elifs : List ChainLink)
    (elseB : Option (Token × List PNode)) : Prop :=
  (∀ n ∈ b0, isChainContent n = true) ∧
  (∀ l ∈ elifs, l.1.type = "instruction" ∧ l.1.keywordD = "elif" ∧
      ∀ n ∈ l.2.2.2, isChainContent n = true) ∧
  (∀ t be, elseB = some (t, be) →
      (t.type = "instruction" ∧ t.keywordD = "else") ∧
      ∀ n ∈ be, isChainContent n = true)

/-- Folding the raw children of an `if/elif/.../else/endif` chain produces
exactly the right-leaning chain of `If` nodes: content before the first
marker becomes the `true_branch`, each `elif` becomes a nested `If` in the
`false_branch`, and the `else` body becomes the innermost `false_branch`. -/
theorem foldIfNode_chain :
    ∀ (elifs : List ChainLink) (tok : Token) (a : String) (b0 : List PNode)
      (elseB : Option (Token × List PNode)),
      ChainWf b0 elifs elseB →
      foldIfNode tok a (chainChildren b0 elifs elseB) =
        chainFolded tok a b0 elifs elseB := by
  intro elifs
  induction elifs with
  | nil =>
      intro tok a b0 elseB hwf
      obtain ⟨hb0, -, helse⟩ := hwf
      cases elseB with
      | none =>
          simp only [chainFolded, elseBody, chainChildren, List.flatMap_nil,
            List.append_nil, foldIfNode, fold2_content_all b0 hb0]
      | some p =>
          obtain ⟨t, be⟩ := p
          obtain ⟨ht, hbe⟩ := helse t be rfl
          simp only [chainFolded, elseBody, chainChildren, List.flatMap_nil,
            List.nil_append, List.append_nil, foldIfNode]
          rw [fold2_content_front b0 _ hb0, fold2_else_marker t be ht,
            fold2_else_content be hbe]
          simp
  | cons l rest ih =>
      intro tok a b0 elseB hwf
      obtain ⟨t1, a1, bv1, b1⟩ := l
      obtain ⟨hb0, helifs, helse⟩ := hwf
      have hmk : t1.type = "instruction" ∧ t1.keywordD = "elif" :=
        ⟨(helifs (t1, a1, bv1, b1) (by simp)).1,
         (helifs (t1, a1, bv1, b1) (by simp)).2.1⟩
      have hsplit : chainChildren b0 ((t1, a1, bv1, b1) :: rest) elseB =
          b0 ++ (mkElifMarker t1 a1 :: chainChildren b1 rest elseB) := by
        simp [chainChildren, List.flatMap_cons]
      have hwfrest : ChainWf b1 rest elseB :=
        ⟨(helifs (t1, a1, bv1, b1) (by simp)).2.2,
         fun l2 hl2 => helifs l2 (List.mem_cons_of_mem _ hl2), helse⟩
      have hih := ih t1 a1 b1 elseB hwfrest
      simp only [foldIfNode] at hih
      rw [show chainFolded tok a b0 ((t1, a1, bv1, b1) :: rest) elseB =
            PNode.ifNode tok a (.node b0) (chainFolded t1 a1 b1 rest elseB)
              (chainChildren b0 ((t1, a1, bv1, b1) :: rest) elseB) from rfl]
      rw [hsplit, ← hih]
      simp only [foldIfNode]
      rw [fold2_content_front b0 _ hb0, fold2_elif_marker t1 a1 _ hmk]
      simp

/-- First-true branch selection: the body of the first link whose condition
is true, or the `else` body when none is. -/
def firstTrue : List (Bool × List PNode) → List PNode → List PNode
  | [], be => be
  | (true, b) :: _, _ => b
  | (false, _) :: rest, be => firstTrue rest be

/-- Rendering the folded chain renders exactly the first branch whose
condition evaluates to true (or the `else` body). -/
theorem render_chainFolded (c : Context) (top : PyScope)
    (hhead : c.scope.head? = some top) :
    ∀ (elifs : List ChainLink) (tok : Token) (a : String) (bv : Bool)
      (b0 : List PNode) (elseB : Option (Token × List PNode)),
      evalCondTop top a = some bv →
      (∀ l ∈ elifs, evalCondTop top l.2.1 = some l.2.2.1) →
      renderNode (chainFolded tok a b0 elifs elseB) c =
        renderNode
          (.node (firstTrue ((bv, b0) :: elifs.map (fun l => (l.2.2.1, l.2.2.2)))
            (elseBody elseB))) c := by
  intro elifs
  induction elifs with
  | nil =>
      intro tok a bv b0 elseB ha _
      simp only [chainFolded]
      rw [renderNode_if]
      simp only [hhead, ha]
      cases bv with
      | true => simp [firstTrue]
      | false => simp [firstTrue]
  | cons l rest ih =>
      intro tok a bv b0 elseB ha hrest
      obtain ⟨t1, a1, bv1, b1⟩ := l
      simp only [chainFolded]
      rw [renderNode_if]
      simp only [hhead, ha]
      cases bv with
      | true => simp [firstTrue]
      | false =>
          simp only [if_neg (by decide : ¬(false = true))]
          rw [ih t1 a1 bv1 b1 elseB (hrest (t1, a1, bv1, b1) (by simp))
              (fun l2 hl2 => hrest l2 (List.mem_cons_of_mem _ hl2))]
          simp [firstTrue]

end ElifChains

section LexerTheorems

/-- The spec-level notion of a balanced tag list: an alternating sequence
of opener / matching-closer pairs. -/
def balancedTags : List TagOcc → Bool
  | [] => true
  | [_] => false
  | o :: c :: rest =>
      o.opening && !c.opening && decide (o.expecting = some c.tag) && balancedTags rest

/-- Modelled from the spec: the single-slot validation machine of §4.1,
stated in the spec's words — an opening delimiter while a tag is open fails
(`ConsecutiveOpeningTag`); a closing delimiter while none is open fails
(`UnmatchedClosingTag`); a closing delimiter that is not the open
delimiter's expected partner fails (`MismatchedClosingTag`); end of input
with a tag still open fails (`UnterminatedOpeningTag`); otherwise the list
is accepted. -/
def scanSpec : List TagOcc → Option TagOcc → Except TemplateErr Unit
  | [], Option.none => .ok ()
  | [], some _ => .error .unterminatedOpeningTag
  | t :: rest, Option.none =>
      if t.opening then scanSpec rest (some t) else .error .unmatchedClosingTag
  | t :: rest, some o =>
      if t.opening then .error .consecutiveOpeningTag
      else if o.expecting ≠ some t.tag then .error .mismatchedClosingTag
      else scanSpec rest Option.none

/-- The source's validation loop agrees with the spec's machine (the source
raises `UnterminatedOpeningTag` when pushing the final tag, the spec's
machine at end of input — same verdict). -/
theorem valLoop_eq_scanSpec :
    ∀ l : List TagOcc,
      valLoop l Option.none = scanSpec l Option.none ∧
      (∀ o, l ≠ [] → valLoop l (some o) = scanSpec l (some o)) := by
  intro l
  induction l with
  | nil => exact ⟨rfl, fun o h => absurd rfl h⟩
  | cons t rest ih =>
      constructor
      · show valLoop (t :: rest) Option.none = scanSpec (t :: rest) Option.none
        simp only [valLoop, scanSpec]
        cases ho : t.opening with
        | false => simp
        | true =>
            simp only [if_true]
            cases rest with
            | nil => simp [List.isEmpty, scanSpec]
            | cons u us =>
                simp only [List.isEmpty_cons, if_neg (by decide : ¬(false = true))]
                exact ih.2 t (by simp)
      · intro o _
        simp only [valLoop, scanSpec]
        cases ho : t.opening with
        | true => simp
        | false =>
            simp only [Bool.false_eq_true, if_false]
            by_cases he : o.expecting = some t.tag
            · rw [if_neg (by simp [he]), if_neg (by simp [he])]
              exact ih.1
            · rw [if_pos he, if_pos he]

/-- The source's tag validation accepts exactly the balanced tag lists. -/
theorem valLoop_ok_iff_balanced :
    ∀ l : List TagOcc, (valLoop l Option.none).isOk = balancedTags l := by
  intro l
  induction l using balancedTags.induct with
  | case1 => rfl
  | case2 x =>
      show (valLoop [x] Option.none).isOk = false
      simp only [valLoop]
      cases ho : x.opening with
      | true => simp only [if_true, List.isEmpty]; rfl
      | false => simp only [Bool.false_eq_true, if_false]; rfl
  | case3 o c rest ih =>
      show (valLoop (o :: c :: rest) Option.none).isOk = balancedTags (o :: c :: rest)
      simp only [valLoop, balancedTags]
      cases ho : o.opening with
      | false => simp only [Bool.false_eq_true, if_false, Bool.false_and]; rfl
      | true =>
          simp only [if_true, List.isEmpty_cons, if_neg (by decide : ¬(false = true)),
            Bool.true_and]
          show (valLoop (c :: rest) (some o)).isOk = _
          simp only [valLoop]
          cases hc : c.opening with
          | true => simp only [if_true, Bool.not_true, Bool.false_and]; rfl
          | false =>
              simp only [Bool.false_eq_true, if_false, Bool.not_false, Bool.true_and]
              by_cases he : o.expecting = some c.tag
              · rw [if_neg (by simp [he])]
                simp [he, ih]
              · rw [if_pos he]
                simp [he]; rfl

end LexerTheorems

section TokenizeTheorems

/-- Modelled from the amended tokenizer description, over the validated
alternating tag-pair list: for each opener/closer pair, the text between
the previous closer and this opener is right-trimmed and kept when
non-empty; the pair's content is stripped and becomes a token unless it is
a comment; after the last pair, any remaining text is kept verbatim.
`endv` is the end position of the previous closer (for the first pair it is
passed as the opener's own index, so no between-text is produced — the text
before the first tag is handled separately and verbatim). -/
def tokenizeSpecPairs (tplc : List Char) (tplLen : Nat) :
    List TagOcc → Nat → List Token
  | o :: c :: rest, endv =>
      (if endv ≠ o.index ∧ pyRstrip (pySlice tplc endv o.index) ≠ "" then
        [⟨"text", pyRstrip (pySlice tplc endv o.index)⟩]
       else []) ++
      (if c.ttype ≠ "comment" then
        [⟨c.ttype, pyStrip (pySlice tplc (o.index + 2) c.index)⟩]
       else []) ++
      (if rest.isEmpty ∧ c.index + 2 < tplLen then
        [⟨"text", pySliceFrom tplc (c.index + 2)⟩]
       else []) ++
      tokenizeSpecPairs tplc tplLen rest (c.index + 2)
  | _, _ => []

/-- Modelled from the amended tokenizer description, top level: the text
before the first tag is kept verbatim (not trimmed), then the pairs. -/
def tokenizeSpec (tplc : List Char) (tplLen : Nat) (tags : List TagOcc) : List Token :=
  match tags with
  | [] => []
  | o :: _ =>
      (if 0 < o.index then [⟨"text", pySlice tplc 0 o.index⟩] else []) ++
      tokenizeSpecPairs tplc tplLen tags o.index

theorem if_append (P : Prop) [Decidable P] (a : List Token) (x : Token) :
    (if P then a ++ [x] else a) = a ++ (if P then [x] else []) := by
  split <;> simp

theorem between_append (P : Prop) [Decidable P] (a : List Token) (t : String) :
    (if P then (if t ≠ "" then a ++ [Token.mk "text" t] else a) else a) =
      a ++ (if P ∧ t ≠ "" then [Token.mk "text" t] else []) := by
  by_cases hP : P <;> by_cases ht : t = "" <;> simp [hP, ht]

theorem tokLoop_closer_step (tplc : List Char) (tplLen : Nat) (c : TagOcc)
    (rest : List TagOcc) (hc : c.opening = false)
    (Hrest : ∀ i n start endv acc, 1 ≤ i → n = i + rest.length →
        tokLoop tplc tplLen rest i n start endv acc =
          acc ++ tokenizeSpecPairs tplc tplLen rest endv) :
    ∀ i n start endv acc, 1 ≤ i → n = (i + 1) + rest.length →
      tokLoop tplc tplLen (c :: rest) i n start endv acc =
        acc ++
        ((if c.ttype ≠ "comment" then
          [⟨c.ttype, pyStrip (pySlice tplc (start + 2) c.index)⟩]
         else []) ++
        ((if rest.isEmpty ∧ c.index + 2 < tplLen then
          [⟨"text", pySliceFrom tplc (c.index + 2)⟩]
         else []) ++
        tokenizeSpecPairs tplc tplLen rest (c.index + 2))) := by
  intro i n start endv acc hi hn
  have htrail : (i + 1 = n ∧ c.index + 2 < tplLen) ↔
      (rest.isEmpty = true ∧ c.index + 2 < tplLen) := by
    cases rest with
    | nil =>
        simp only [List.length_nil, List.isEmpty_nil] at hn ⊢
        constructor
        · rintro ⟨-, h2⟩; exact ⟨trivial, h2⟩
        · rintro ⟨-, h2⟩; exact ⟨by omega, h2⟩
    | cons r rs =>
        simp only [List.length_cons, List.isEmpty_cons] at hn ⊢
        constructor
        · rintro ⟨h1, -⟩; omega
        · rintro ⟨h1, -⟩; cases h1
  have hstep : tokLoop tplc tplLen (c :: rest) i n start endv acc =
      tokLoop tplc tplLen rest (i + 1) n start (c.index + 2)
        (if i + 1 = n ∧ c.index + 2 < tplLen then
          (if c.ttype ≠ "comment" then
            acc ++ [Token.mk c.ttype (pyStrip (pySlice tplc (start + 2) (c.index + 2 - 2)))]
           else acc) ++ [Token.mk "text" (pySliceFrom tplc (c.index + 2))]
         else
          (if c.ttype ≠ "comment" then
            acc ++ [Token.mk c.ttype (pyStrip (pySlice tplc (start + 2) (c.index + 2 - 2)))]
           else acc)) := by
    simp only [tokLoop, if_neg (show ¬(i = 0 ∧ 0 < c.index) by omega), hc,
      Bool.false_eq_true, if_false]
  rw [hstep, Hrest (i + 1) n start (c.index + 2) _ (by omega) (by omega)]
  rw [show c.index + 2 - 2 = c.index from by omega]
  rw [if_append ((c.ttype ≠ "comment")) acc
      (Token.mk c.ttype (pyStrip (pySlice tplc (start + 2) c.index)))]
  rw [if_append (i + 1 = n ∧ c.index + 2 < tplLen) _
      (Token.mk "text" (pySliceFrom tplc (c.index + 2)))]
  simp only [htrail]
  simp [List.append_assoc]

theorem tokLoop_pairs (tplc : List Char) (tplLen : Nat) :
    ∀ l : List TagOcc, balancedTags l = true →
    ∀ i n start endv acc, 1 ≤ i → n = i + l.length →
      tokLoop tplc tplLen l i n start endv acc =
        acc ++ tokenizeSpecPairs tplc tplLen l endv := by
  intro l
  induction l using balancedTags.induct with
  | case1 =>
      intro _ i n start endv acc _ _
      simp [tokLoop, tokenizeSpecPairs]
  | case2 x => intro hb; simp [balancedTags] at hb
  | case3 o c rest ih =>
      intro hb i n start endv acc hi hn
      simp only [balancedTags, Bool.and_eq_true, Bool.not_eq_true',
        decide_eq_true_eq] at hb
      obtain ⟨⟨⟨ho, hc⟩, -⟩, hrest⟩ := hb
      simp only [List.length_cons] at hn
      have hstep1 : tokLoop tplc tplLen (o :: c :: rest) i n start endv acc =
          tokLoop tplc tplLen (c :: rest) (i + 1) n o.index endv
            (if endv ≠ o.index then
              (if pyRstrip (pySlice tplc endv o.index) ≠ "" then
                acc ++ [Token.mk "text" (pyRstrip (pySlice tplc endv o.index))]
               else acc)
             else acc) := by
        simp only [tokLoop, if_neg (show ¬(i = 0 ∧ 0 < o.index) by omega), ho, if_true,
          if_neg (show ¬(i + 1 = n ∧ o.index + 2 < tplLen) by omega)]
      rw [hstep1,
        tokLoop_closer_step tplc tplLen c rest hc
          (fun i2 n2 s2 e2 a2 hi2 hn2 => ih hrest i2 n2 s2 e2 a2 hi2 hn2)
          (i + 1) n o.index endv _ (by omega) (by omega)]
      rw [show tokenizeSpecPairs tplc tplLen (o :: c :: rest) endv =
            (if endv ≠ o.index ∧ pyRstrip (pySlice tplc endv o.index) ≠ "" then
              [⟨"text", pyRstrip (pySlice tplc endv o.index)⟩]
             else []) ++
            ((if c.ttype ≠ "comment" then
              [⟨c.ttype, pyStrip (pySlice tplc (o.index + 2) c.index)⟩]
             else []) ++
            ((if rest.isEmpty ∧ c.index + 2 < tplLen then
              [⟨"text", pySliceFrom tplc (c.index + 2)⟩]
             else []) ++
            tokenizeSpecPairs tplc tplLen rest (c.index + 2))) from by
          simp [tokenizeSpecPairs, List.append_assoc]]
      rw [between_append (endv ≠ o.index) acc (pyRstrip (pySlice tplc endv o.index))]
      simp [List.append_assoc]

/-- `Lexer.find_all_tags` returns the sorted occurrence list, which is
balanced whenever the scan succeeds. -/
theorem find_all_tags_ok (tpl : String) (tags : List TagOcc)
    (h : Lexer.find_all_tags tpl = .ok tags) :
    tags = sortTags (allOccs tpl.toList) ∧ balancedTags tags = true := by
  unfold Lexer.find_all_tags at h
  split at h
  next heq =>
      cases h
      exact ⟨rfl, by rw [← valLoop_ok_iff_balanced, heq]; rfl⟩
  next => cases h

/-- `Lexer.tokenize` computes exactly the spec-level tokenization of the
validated tag list. -/
theorem tokenize_eq_spec (tpl : String) (tags : List TagOcc)
    (h : Lexer.find_all_tags tpl = .ok tags) :
    Lexer.tokenize tpl = .ok (tokenizeSpec tpl.toList tpl.length tags) := by
  obtain ⟨-, hbal⟩ := find_all_tags_ok tpl tags h
  unfold Lexer.tokenize
  rw [h]
  dsimp only
  congr 1
  cases tags with
  | nil => rfl
  | cons o rest0 =>
      cases rest0 with
      | nil => simp [balancedTags] at hbal
      | cons c rest =>
          have hbal2 := hbal
          simp only [balancedTags, Bool.and_eq_true, Bool.not_eq_true',
            decide_eq_true_eq] at hbal2
          obtain ⟨⟨⟨ho, hc⟩, -⟩, hrest⟩ := hbal2
          have hcloser := tokLoop_closer_step tpl.toList tpl.length c rest hc
            (fun i2 n2 s2 e2 a2 hi2 hn2 =>
              tokLoop_pairs tpl.toList tpl.length rest hrest i2 n2 s2 e2 a2 hi2 hn2)
          by_cases hz : 0 < o.index
          · have hstep0 : tokLoop tpl.toList tpl.length (o :: c :: rest) 0
                (o :: c :: rest).length 0 0 [] =
                tokLoop tpl.toList tpl.length (c :: rest) 1 (o :: c :: rest).length
                  o.index 0 [Token.mk "text" (pySlice tpl.toList 0 o.index)] := by
              conv_lhs => rw [tokLoop]
              rw [if_pos (⟨rfl, hz⟩ : (0 : Nat) = 0 ∧ 0 < o.index)]
              rfl
            rw [hstep0, hcloser 1 _ o.index 0 _ (by omega) (by simp; omega)]
            simp only [tokenizeSpec, if_pos hz, tokenizeSpecPairs,
              if_neg (show ¬(o.index ≠ o.index ∧
                pyRstrip (pySlice tpl.toList o.index o.index) ≠ "") by simp)]
            simp [List.append_assoc]
          · have hz0 : o.index = 0 := by omega
            have hstep0 : tokLoop tpl.toList tpl.length (o :: c :: rest) 0
                (o :: c :: rest).length 0 0 [] =
                tokLoop tpl.toList tpl.length (c :: rest) 1 (o :: c :: rest).length
                  o.index 0 [] := by
              conv_lhs => rw [tokLoop]
              rw [if_neg (show ¬((0 : Nat) = 0 ∧ 0 < o.index) by omega)]
              simp only [ho, if_true, if_neg (show ¬((0 : Nat) ≠ o.index) by omega),
                if_neg (show ¬(0 + 1 = (o :: c :: rest).length ∧ o.index + 2 <
                  tpl.length) from by simp [List.length_cons])]
            rw [hstep0, hcloser 1 _ o.index 0 _ (by omega) (by simp; omega)]
            simp only [tokenizeSpec, if_neg hz, tokenizeSpecPairs,
              if_neg (show ¬(o.index ≠ o.index ∧
                pyRstrip (pySlice tpl.toList o.index o.index) ≠ "") by simp)]
            simp [List.append_assoc]

end TokenizeTheorems

section ElseNodes

/-! Whether an `ElseNode` occurs anywhere in a tree (through children lists
and `If` branches alike), and whether every `ElseNode` in a tree has no
children. -/
mutual

def containsElseN : PNode → Bool
  | .node ch => containsElseS ch
  | .textNode _ => false
  | .printNode _ => false
  | .ifNode _ _ tb fb ch => containsElseN tb || containsElseN fb || containsElseS ch
  | .elseNode _ _ => true
  | .forNode _ _ _ ch => containsElseS ch

def containsElseS : List PNode → Bool
  | [] => false
  | n :: rest => containsElseN n || containsElseS rest

end

mutual

def elseChildless : PNode → Bool
  | .node ch => elseChildlessS ch
  | .textNode _ => true
  | .printNode _ => true
  | .ifNode _ _ tb fb ch => elseChildless tb && elseChildless fb && elseChildlessS ch
  | .elseNode _ ch => ch.isEmpty
  | .forNode _ _ _ ch => elseChildlessS ch

def elseChildlessS : List PNode → Bool
  | [] => true
  | n :: rest => elseChildless n && elseChildlessS rest

end

theorem elseChildlessS_append (a b : List PNode) :
    elseChildlessS (a ++ b) = (elseChildlessS a && elseChildlessS b) := by
  induction a with
  | nil => simp [elseChildlessS]
  | cons n rest ih => simp [elseChildlessS, ih, Bool.and_assoc]

/-- All three outputs of the folding state machine consist of nodes drawn
from the input list (plus empty branch shells), so childlessness of every
`ElseNode` is preserved. -/
theorem fold2_childless (m : Bool) (cs : List PNode)
    (h : elseChildlessS cs = true) :
    elseChildlessS (fold2 m cs).1 = true ∧
    elseChildlessS (fold2 m cs).2.1 = true ∧
    (∀ nn, (fold2 m cs).2.2 = some nn → elseChildless nn = true) := by
  induction cs generalizing m with
  | nil => exact ⟨rfl, rfl, fun nn hnn => by cases hnn⟩
  | cons c rest ih =>
      simp only [elseChildlessS, Bool.and_eq_true] at h
      obtain ⟨hc, hrest⟩ := h
      simp only [fold2]
      cases hm : elifTokOf c with
      | some p =>
          obtain ⟨t, a⟩ := p
          obtain ⟨ih1, ih2, ih3⟩ := ih false hrest
          refine ⟨rfl, rfl, fun nn hnn => ?_⟩
          simp only [Option.some.injEq] at hnn
          subst hnn
          simp only [elseChildless, Bool.and_eq_true]
          refine ⟨⟨ih1, ?_⟩, hrest⟩
          cases hnest : (fold2 false rest).2.2 with
          | none => exact ih2
          | some nn2 => exact ih3 nn2 hnest
      | none =>
          by_cases he : isInstrKw c "else" = true
          · simp only [he, if_true]
            exact ih true hrest
          · simp only [Bool.not_eq_true] at he
            simp only [he, Bool.false_eq_true, if_false]
            obtain ⟨ih1, ih2, ih3⟩ := ih m hrest
            cases m with
            | true =>
                simp only [if_true]
                exact ⟨ih1, by simp [elseChildlessS, hc, ih2], ih3⟩
            | false =>
                simp only [Bool.false_eq_true, if_false]
                exact ⟨by simp [elseChildlessS, hc, ih1], ih2, ih3⟩

theorem foldIfNode_childless (tok : Token) (arg : String) (cs : List PNode)
    (h : elseChildlessS cs = true) :
    elseChildless (foldIfNode tok arg cs) = true := by
  obtain ⟨h1, h2, h3⟩ := fold2_childless false cs h
  simp only [foldIfNode, elseChildless, Bool.and_eq_true]
  refine ⟨⟨by simp [elseChildless, h1], ?_⟩, h⟩
  cases hnest : (fold2 false cs).2.2 with
  | none => simp [elseChildless, h2]
  | some nn => exact h3 nn hnest

/-- The children accumulated so far in a parser frame. -/
def Frame.acc : Frame → List PNode
  | .rootF acc => acc
  | .ifF _ _ acc => acc
  | .forF _ _ _ acc => acc

theorem finalizeFrame_childless (f : Frame)
    (h : elseChildlessS f.acc = true) :
    elseChildless (finalizeFrame f) = true := by
  cases f with
  | rootF acc => simpa [finalizeFrame, elseChildless, Frame.acc] using h
  | ifF tok arg acc => exact foldIfNode_childless tok arg acc h
  | forF tok v coll acc => simpa [finalizeFrame, elseChildless, Frame.acc] using h

theorem appendTop_childless (frames : List Frame) (n : PNode)
    (hf : ∀ f ∈ frames, elseChildlessS f.acc = true)
    (hn : elseChildless n = true) :
    ∀ f ∈ appendTop frames n, elseChildlessS f.acc = true := by
  cases frames with
  | nil => intro f hf2; cases hf2
  | cons top rest =>
      intro f hf2
      cases top with
      | rootF acc =>
          simp only [appendTop, List.mem_cons] at hf2
          cases hf2 with
          | inl h =>
              subst h
              have hacc : elseChildlessS acc = true := hf (.rootF acc) (by simp)
              simp only [Frame.acc, elseChildlessS_append]
              simp [hacc, elseChildlessS, hn]
          | inr h => exact hf f (List.mem_cons_of_mem _ h)
      | ifF tok arg acc =>
          simp only [appendTop, List.mem_cons] at hf2
          cases hf2 with
          | inl h =>
              subst h
              have hacc : elseChildlessS acc = true := hf (.ifF tok arg acc) (by simp)
              simp only [Frame.acc, elseChildlessS_append]
              simp [hacc, elseChildlessS, hn]
          | inr h => exact hf f (List.mem_cons_of_mem _ h)
      | forF tok v coll acc =>
          simp only [appendTop, List.mem_cons] at hf2
          cases hf2 with
          | inl h =>
              subst h
              have hacc : elseChildlessS acc = true := hf (.forF tok v coll acc) (by simp)
              simp only [Frame.acc, elseChildlessS_append]
              simp [hacc, elseChildlessS, hn]
          | inr h => exact hf f (List.mem_cons_of_mem _ h)

/-- Every `ElseNode` in a tree produced by the parser has no children: the
parser only ever creates `ElseNode`s with an empty children list and never
pushes them onto the open-block stack. -/
theorem parseLoop_childless :
    ∀ (toks : List Token) (frames : List Frame) (expecting : List String),
      (∀ f ∈ frames, elseChildlessS f.acc = true) →
      ∀ root, parseLoop toks frames expecting = .ok root →
        elseChildless root = true := by
  intro toks
  induction toks with
  | nil =>
      intro frames expecting hf root h
      simp only [parseLoop] at h
      split at h
      next => cases h
      next =>
          split at h
          next f fs =>
              cases h
              exact finalizeFrame_childless f (hf f (by simp))
          next => cases h
  | cons tok rest ih =>
      intro frames expecting hf root h
      simp only [parseLoop] at h
      split at h
      next =>
          exact ih _ _ (appendTop_childless frames _ hf (by rfl)) root h
      next =>
          split at h
          next =>
              exact ih _ _ (appendTop_childless frames _ hf (by rfl)) root h
          next =>
              split at h
              next =>
                  split at h
                  next => cases h
                  next kw hkweq =>
                      split at h
                      next =>
                          split at h
                          next =>
                              cases hm : matchKwArg ['i', 'f'] tok.text with
                              | none => rw [hm] at h; cases h
                              | some arg =>
                                  rw [hm] at h
                                  dsimp only at h
                                  refine ih _ _ ?_ root h
                                  intro f hf2
                                  simp only [List.mem_cons] at hf2
                                  cases hf2 with
                                  | inl hh => subst hh; rfl
                                  | inr hh => exact hf f hh
                          next =>
                              cases hm : matchForArgs tok.text with
                              | none => rw [hm] at h; cases h
                              | some p =>
                                  rw [hm] at h
                                  obtain ⟨v, coll⟩ := p
                                  dsimp only at h
                                  refine ih _ _ ?_ root h
                                  intro f hf2
                                  simp only [List.mem_cons] at hf2
                                  cases hf2 with
                                  | inl hh => subst hh; rfl
                                  | inr hh => exact hf f hh
                      next =>
                          split at h
                          next =>
                              by_cases hkw : kw = "elif"
                              · rw [if_pos hkw] at h
                                cases hm : matchKwArg ['e', 'l', 'i', 'f'] tok.text with
                                | none =>
                                    rw [hm] at h
                                    dsimp only [Option.map] at h
                                    cases h
                                | some a =>
                                    rw [hm] at h
                                    dsimp only [Option.map] at h
                                    split at h
                                    next => cases h
                                    next =>
                                        exact ih _ _
                                          (appendTop_childless frames _ hf (by rfl)) root h
                              · rw [if_neg hkw] at h
                                dsimp only at h
                                split at h
                                next => cases h
                                next =>
                                    exact ih _ _
                                      (appendTop_childless frames _ hf (by rfl)) root h
                          next =>
                              split at h
                              next =>
                                  cases expecting with
                                  | nil => dsimp only at h; cases h
                                  | cons e erest =>
                                      dsimp only at h
                                      split at h
                                      next => cases h
                                      next =>
                                          cases hfr : frames with
                                          | nil => rw [hfr] at h; dsimp only at h; cases h
                                          | cons top frs =>
                                              rw [hfr] at h
                                              dsimp only at h
                                              refine ih _ _ ?_ root h
                                              refine appendTop_childless frs _ ?_
                                                (finalizeFrame_childless top
                                                  (hf top (by rw [hfr]; simp)))
                                              intro f hf2
                                              have hmem : f ∈ frames := by
                                                rw [hfr]
                                                exact List.mem_cons_of_mem _ hf2
                                              exact hf f hmem
                              next => exact ih _ _ hf root h
              next => exact ih _ _ hf root h

end ElseNodes

section TemplateApi

/-- `text.replace("\n\n", "\n")`: one global left-to-right pass replacing
non-overlapping occurrences of two consecutive newlines by one. -/
def pyReplaceNN : List Char → List Char
  | '\n' :: '\n' :: rest => '\n' :: pyReplaceNN rest
  | c :: rest => c :: pyReplaceNN rest
  | [] => []

/-- The post-processing of `Template.render`: strip the whole result, then
collapse double newlines. -/
def postProcess (s : String) : String :=
  (pyReplaceNN (pyStrip s).toList).asString

/-- `Template.render(data)` given the already-parsed root node: render the
tree with a fresh `Context(data)` and post-process.  The root is always a
generic `Node`, so its rendered value is a string whenever no exception is
raised. -/
def Template.render (root : PNode) (data : PyScope) : Except RenderErr String :=
  match renderNode root (ContextOf data) with
  | (.ok v, _, _) =>
      match v with
      | .str s => .ok (postProcess s)
      | _ => .error .typeError
  | (.error e, _, _) => .error e

/-- A compile-time or run-time failure of the whole pipeline. -/
inductive RunErr where
  | compileE (e : TemplateErr)
  | renderE (e : RenderErr)
deriving DecidableEq

/-- `Template(tpl).render(data)`: parse then render. -/
def fullRender (tpl : String) (data : PyScope) : Except RunErr String :=
  match Parser.parse tpl with
  | .error e => .error (.compileE e)
  | .ok root =>
      match Template.render root data with
      | .ok s => .ok s
      | .error e => .error (.renderE e)

end TemplateApi

-- sanity: the render test cases of the repository's test suite
example : fullRender "\x7b% if True %\x7dIF\x7b% else %\x7dELSE\x7b% endif %\x7d" [] = .ok "IF" := by rfl
example : fullRender "\x7b% if False %\x7dIF\x7b% else %\x7dELSE\x7b% endif %\x7d" [] = .ok "ELSE" := by rfl
example : fullRender "\x7b% if False %\x7dIF\x7b% elif True %\x7dELIF\x7b% else %\x7dELSE\x7b% endif %\x7d" [] = .ok "ELIF" := by rfl
example : fullRender "\x7b% if False %\x7dIF\x7b% elif False %\x7dELIF\x7b% else %\x7dELSE\x7b% endif %\x7d" [] = .ok "ELSE" := by rfl
example : fullRender "\x7b% for item in basket %\x7d\x7b\x7bitem\x7d\x7d\x7b% endfor %\x7d"
    [("basket", .list [.str "Apple", .str "Banana", .str "Cherry"])] = .ok "AppleBananaCherry" := by rfl
example : fullRender "\x7b% if True %\x7d\x7b% for item in basket %\x7d\x7b\x7bitem\x7d\x7d\x7b% endfor %\x7d\x7b% endif %\x7d"
    [("basket", .list [.str "Apple", .str "Banana", .str "Cherry"])] = .ok "AppleBananaCherry" := by rfl
example : fullRender "\x7b% if False %\x7d\x7b% for item in basket %\x7d\x7b\x7bitem\x7d\x7d\x7b% endfor %\x7d\x7b% endif %\x7d"
    [("basket", .list [.str "Apple", .str "Banana", .str "Cherry"])] = .ok "" := by rfl

section Claims

/-! The ten claims of the specification, settled against the embedding
above.  Each claim has one theorem; a corrected claim also has a
counterexample theorem refuting the original wording at a concrete
input. -/

/-- C1 (corrected): the spec says `render` never fails and unresolvable
expressions degrade to empty/false.  In the source, `IfNode.render` runs
the evaluator on the condition with no exception handler, and the `join`
over a non-string printed value raises `TypeError`; rendering therefore
either returns a string or raises exactly one of those two errors (the
scope stack of a fresh `Context` is never empty, so no `IndexError`). -/
theorem c1_render_error_modes (root : PNode) (data : PyScope) :
    (∃ s, Template.render root data = .ok s) ∨
    (∃ expr, Template.render root data = .error (.nameError expr)) ∨
    Template.render root data = .error .typeError := by
  cases hr : renderNode root (ContextOf data) with
  | mk r p =>
      obtain ⟨c', evs⟩ := p
      cases r with
      | ok v =>
          cases v with
          | str s => exact Or.inl ⟨postProcess s, by unfold Template.render; rw [hr]⟩
          | bool b => exact Or.inr (Or.inr (by unfold Template.render; rw [hr]))
          | int n => exact Or.inr (Or.inr (by unfold Template.render; rw [hr]))
          | list l => exact Or.inr (Or.inr (by unfold Template.render; rw [hr]))
          | none => exact Or.inr (Or.inr (by unfold Template.render; rw [hr]))
      | error e =>
          have hcl := (goodN_all root).2 (ContextOf data) e c' evs (by simp [ContextOf]) hr
          cases hcl with
          | inl hn =>
              obtain ⟨s, hs⟩ := hn
              exact Or.inr (Or.inl ⟨s, by unfold Template.render; rw [hr, hs]⟩)
          | inr ht =>
              exact Or.inr (Or.inr (by unfold Template.render; rw [hr, ht]))

/-- C1, counterexample to the original claim: a compiled template whose
`if` condition is an unbound name raises `NameError` at render time
instead of degrading to false. -/
theorem c1_unevaluable_condition_raises :
    fullRender "\x7b% if missing %\x7dA\x7b% endif %\x7d" [] =
      .error (.renderE (.nameError "missing")) := by rfl

/-- C2 (corrected): the tag-scanning stage accepts exactly the templates
whose delimiter occurrences, sorted by position, form a balanced
alternating opener/matching-closer sequence — but compile as a whole can
still fail on a delimiter-balanced template (see the counterexample), so
delimiter balance alone does not guarantee successful compilation. -/
theorem c2_scan_balance_characterisation (tpl : String) :
    (Lexer.find_all_tags tpl).isOk = balancedTags (sortTags (allOccs tpl.toList)) := by
  rw [← valLoop_ok_iff_balanced]
  unfold Lexer.find_all_tags
  cases hv : valLoop (sortTags (allOccs tpl.toList)) Option.none with
  | ok u => rfl
  | error e => rfl

/-- C2, counterexample to the original claim: `\x7b% endif %\x7d` has
balanced, correctly nested delimiters (the scan accepts it), yet compile
fails (`Template: 누락된 if`). -/
theorem c2_balanced_template_failing_compile :
    (Lexer.find_all_tags "\x7b% endif %\x7d").isOk = true ∧
    (Parser.parse "\x7b% endif %\x7d").isOk = false := ⟨rfl, rfl⟩

/-- C3 (confirmed): folding and rendering an `if/elif/.../else/endif`
chain selects exactly the first branch whose condition is true (the
`else` body when none is), for any number of `elif`s; and the claim's
concrete template renders to `"ELIF1"`. -/
theorem c3_elif_chain_first_true (c : Context) (top : PyScope)
    (hhead : c.scope.head? = some top) (elifs : List ChainLink) (tok : Token)
    (a : String) (bv : Bool) (b0 : List PNode)
    (elseB : Option (Token × List PNode)) (hwf : ChainWf b0 elifs elseB)
    (ha : evalCondTop top a = some bv)
    (helifs : ∀ l ∈ elifs, evalCondTop top l.2.1 = some l.2.2.1) :
    renderNode (foldIfNode tok a (chainChildren b0 elifs elseB)) c =
      renderNode (.node (firstTrue
        ((bv, b0) :: elifs.map (fun l => (l.2.2.1, l.2.2.2)))
        (elseBody elseB))) c ∧
    fullRender "\x7b% if False %\x7dIF\x7b% elif True %\x7dELIF1\x7b% elif True %\x7dELIF2\x7b% else %\x7dELSE\x7b% endif %\x7d" []
      = .ok "ELIF1" := by
  refine ⟨?_, rfl⟩
  rw [foldIfNode_chain elifs tok a b0 elseB hwf]
  exact render_chainFolded c top hhead elifs tok a bv b0 elseB ha helifs

/-- C3, witness: the selection theorem applied to a concrete one-`elif`
chain (`if False ... elif True ...`). -/
theorem c3_elif_chain_first_true_witness :
    renderNode (foldIfNode ⟨"instruction", "if False"⟩ "False"
        (chainChildren [PNode.textNode ⟨"text", "A"⟩]
          [(⟨"instruction", "elif True"⟩, "True", true,
            [PNode.textNode ⟨"text", "B"⟩])]
          Option.none)) (ContextOf []) =
      renderNode (.node (firstTrue
        ((false, [PNode.textNode ⟨"text", "A"⟩]) ::
          [((⟨"instruction", "elif True"⟩ : Token), "True", true,
            [PNode.textNode ⟨"text", "B"⟩])].map (fun l => (l.2.2.1, l.2.2.2)))
        (elseBody Option.none))) (ContextOf []) ∧
    fullRender "\x7b% if False %\x7dIF\x7b% elif True %\x7dELIF1\x7b% elif True %\x7dELIF2\x7b% else %\x7dELSE\x7b% endif %\x7d" []
      = .ok "ELIF1" :=
  c3_elif_chain_first_true (ContextOf []) [] rfl
    [(⟨"instruction", "elif True"⟩, "True", true, [PNode.textNode ⟨"text", "B"⟩])]
    ⟨"instruction", "if False"⟩ "False" false [PNode.textNode ⟨"text", "A"⟩]
    Option.none ⟨by decide, by decide, fun t be hbe => by cases hbe⟩ rfl (by decide)

/-- C4 (corrected): for an iterable collection, a successful `for` render
pushes one scope before the loop and pops it once after the loop — not
once per element (each element only rebinds the loop variable in that one
scope); the interior events balance and the context is restored.  The
counterexample shows the per-element pairing and the pop-on-failure of
the original claim are both false. -/
theorem c4_for_scope_discipline (t : Token) (v coll : String) (ch : List PNode)
    (c : Context) (hit : isIterable (Context.lookup c coll) = true) :
    ∀ out c2 evs, renderNode (.forNode t v coll ch) c = (.ok out, c2, evs) →
      c2 = c ∧ ∃ evs0, evs = .push :: (evs0 ++ [.pop]) ∧
        countPush evs0 = countPop evs0 := by
  intro out c2 evs h
  have hgood := (goodN_all (.forNode t v coll ch)).1 c out c2 evs h
  refine ⟨hgood.1, ?_⟩
  rw [renderNode_for, if_pos hit] at h
  cases hl : renderLoop ch v (iterItems (Context.lookup c coll)) c.push with
  | mk r p =>
      obtain ⟨c3, evs1⟩ := p
      rw [hl] at h
      cases r with
      | ok outs =>
          dsimp only at h
          simp only [Prod.mk.injEq, Except.ok.injEq] at h
          obtain ⟨-, -, h3⟩ := h
          have hbal := (good_loop ch v (goodS_all ch)
            (iterItems (Context.lookup c coll)) [] c.scope).1 outs c3 evs1 hl
          exact ⟨evs1, h3.symm, hbal.2⟩
      | error e => dsimp only at h; simp at h

/-- C4, witness: a two-element loop; the trace has a single push/pop pair
around two bind events. -/
theorem c4_for_scope_discipline_witness :
    ContextOf [("items", Value.list [.str "a", .str "b"])] =
      ContextOf [("items", Value.list [.str "a", .str "b"])] ∧
    ∃ evs0, [ScopeEvent.push, .bindE "x", .bindE "x", .pop] =
        .push :: (evs0 ++ [.pop]) ∧ countPush evs0 = countPop evs0 :=
  c4_for_scope_discipline ⟨"instruction", "for x in items"⟩ "x" "items"
    [.printNode ⟨"print", "x"⟩]
    (ContextOf [("items", Value.list [.str "a", .str "b"])]) rfl
    (.str "ab") (ContextOf [("items", Value.list [.str "a", .str "b"])])
    [ScopeEvent.push, .bindE "x", .bindE "x", .pop] rfl

/-- C4, counterexample to the original claim: a two-element loop performs
one push and one pop in total (not one pair per element — the per-element
events are binds), and a loop whose body raises ends its trace without
the pop, leaving the pushed scope dangling. -/
theorem c4_push_pop_not_per_element :
    (renderNode (PNode.forNode ⟨"instruction", "for x in items"⟩ "x" "items"
        [.printNode ⟨"print", "x"⟩])
      (ContextOf [("items", Value.list [.str "a", .str "b"])])).2.2 =
        [ScopeEvent.push, .bindE "x", .bindE "x", .pop] ∧
    (renderNode (PNode.forNode ⟨"instruction", "for x in items"⟩ "x" "items"
        [.ifNode ⟨"instruction", "if zzz"⟩ "zzz" (.node []) (.node []) []])
      (ContextOf [("items", Value.list [.str "a"])])).2.2 =
        [ScopeEvent.push, .bindE "x"] := ⟨rfl, rfl⟩

instance : IsTotal TagOcc (fun a b => a.index ≤ b.index) :=
  ⟨fun a b => Nat.le_total a.index b.index⟩

instance : IsTrans TagOcc (fun a b => a.index ≤ b.index) :=
  ⟨fun a b c hab hbc => Nat.le_trans hab hbc⟩

/-- C5 (confirmed): tag scanning sorts the delimiter occurrences by
position and validates them with the single-slot machine of the spec:
the source's scan returns exactly what the spec's machine accepts, with
the spec's error in each failure mode. -/
theorem c5_scanner_single_slot (tpl : String) :
    List.Sorted (fun a b => a.index ≤ b.index) (sortTags (allOccs tpl.toList)) ∧
    Lexer.find_all_tags tpl =
      (match scanSpec (sortTags (allOccs tpl.toList)) Option.none with
       | .ok _ => .ok (sortTags (allOccs tpl.toList))
       | .error e => .error e) := by
  constructor
  · exact List.sorted_insertionSort _ _
  · unfold Lexer.find_all_tags
    rw [(valLoop_eq_scanSpec (sortTags (allOccs tpl.toList))).1]

/-- C6 (corrected): on a template whose tags scan successfully, `tokenize`
right-trims the text before each opening tag and keeps other text
verbatim — except that the text before the first tag of the template is
also kept verbatim (the source `continue`s before trimming when `i == 0`),
contradicting the claim's parenthetical. -/
theorem c6_tokenize_trimming (tpl : String) (tags : List TagOcc)
    (h : Lexer.find_all_tags tpl = .ok tags) :
    Lexer.tokenize tpl = .ok (tokenizeSpec tpl.toList tpl.length tags) :=
  tokenize_eq_spec tpl tags h

/-- C6, witness: the refinement applied to the template `"a \x7b\x7bb\x7d\x7d"`. -/
theorem c6_tokenize_trimming_witness :
    Lexer.tokenize "a \x7b\x7bb\x7d\x7d" =
      .ok (tokenizeSpec "a \x7b\x7bb\x7d\x7d".toList "a \x7b\x7bb\x7d\x7d".length
        (sortTags (allOccs "a \x7b\x7bb\x7d\x7d".toList))) :=
  c6_tokenize_trimming "a \x7b\x7bb\x7d\x7d" (sortTags (allOccs "a \x7b\x7bb\x7d\x7d".toList)) rfl

/-- C6, counterexample to the original claim: the text before the first
(opening) tag keeps its trailing whitespace — the first token is `"a "`,
not its right-trimmed form `"a"`. -/
theorem c6_first_text_not_trimmed :
    Lexer.tokenize "a \x7b\x7bb\x7d\x7d" = .ok [⟨"text", "a "⟩, ⟨"print", "b"⟩] ∧
    pyRstrip "a " = "a" := ⟨rfl, rfl⟩

/-- C7 (confirmed): a `for` node whose collection does not evaluate to an
iterable value renders the empty string with no error; an absent
collection evaluates to the empty string (which iterates zero times), so
it also renders empty with no error. -/
theorem c7_noniterable_for_empty (t : Token) (v coll : String) (ch : List PNode)
    (c : Context)
    (h : isIterable (Context.lookup c coll) = false ∨
         Context.lookup c coll = .str "") :
    ∃ evs, renderNode (.forNode t v coll ch) c = (.ok (.str ""), c, evs) := by
  cases h with
  | inl hni =>
      refine ⟨[], ?_⟩
      rw [renderNode_for, if_neg (by simp [hni])]
  | inr hs =>
      refine ⟨[.push, .pop], ?_⟩
      rw [renderNode_for, hs]
      rfl

/-- C7, witness: a `for` over an absent collection renders empty with no
error. -/
theorem c7_noniterable_for_empty_witness :
    ∃ evs, renderNode (.forNode ⟨"instruction", "for x in n"⟩ "x" "n" [])
      (ContextOf []) = (.ok (.str ""), ContextOf [], evs) :=
  c7_noniterable_for_empty ⟨"instruction", "for x in n"⟩ "x" "n" []
    (ContextOf []) (Or.inr rfl)

/-- C8 (corrected): a successfully parsed tree can retain `Else` nodes
(the claim's counterexample is a `for` body), but every `Else` node the
parser ever creates is childless, and a childless `Else` node renders the
empty string without touching the context — so surviving markers are
inert. -/
theorem c8_else_childless_inert (tpl : String) (root : PNode)
    (h : Parser.parse tpl = .ok root) :
    elseChildless root = true ∧
    ∀ (t : Token) (c : Context),
      renderNode (.elseNode t []) c = (.ok (.str ""), c, []) := by
  constructor
  · unfold Parser.parse at h
    cases htok : Lexer.tokenize tpl with
    | error e => rw [htok] at h; cases h
    | ok toks =>
        rw [htok] at h
        dsimp only at h
        refine parseLoop_childless toks [Frame.rootF []] [] ?_ root h
        intro f hf
        rw [List.mem_singleton] at hf
        subst hf
        rfl
  · intro t c
    rw [renderNode_else]
    rfl

/-- C8, witness: the invariant applied to a parsed `if/else` template. -/
theorem c8_else_childless_inert_witness :
    ∃ root, Parser.parse "\x7b% if True %\x7dA\x7b% else %\x7dB\x7b% endif %\x7d" = .ok root ∧
      elseChildless root = true := by
  have h1 : (Parser.parse "\x7b% if True %\x7dA\x7b% else %\x7dB\x7b% endif %\x7d").isOk = true := rfl
  cases hp : Parser.parse "\x7b% if True %\x7dA\x7b% else %\x7dB\x7b% endif %\x7d" with
  | error e => rw [hp] at h1; simp [Except.toBool, Except.isOk] at h1
  | ok r =>
      exact ⟨r, rfl,
        (c8_else_childless_inert "\x7b% if True %\x7dA\x7b% else %\x7dB\x7b% endif %\x7d" r hp).1⟩

/-- C8, counterexample to the original claim: an `else` marker inside a
`for` body survives parsing — the final tree contains an `ElseNode`. -/
theorem c8_else_node_survives_parse :
    Parser.parse "\x7b% for x in y %\x7dA\x7b% else %\x7dB\x7b% endfor %\x7d" =
      .ok (.node [.forNode ⟨"instruction", "for x in y"⟩ "x" "y"
        [.textNode ⟨"text", "A"⟩, .elseNode ⟨"instruction", "else"⟩ [],
         .textNode ⟨"text", "B"⟩]]) ∧
    containsElseN (.node [.forNode ⟨"instruction", "for x in y"⟩ "x" "y"
        [.textNode ⟨"text", "A"⟩, .elseNode ⟨"instruction", "else"⟩ [],
         .textNode ⟨"text", "B"⟩]]) = true := ⟨rfl, rfl⟩

/-- C9 (confirmed): the final output of `Template.render` is the raw tree
output stripped of leading/trailing whitespace, then with each (non-
overlapping, left-to-right) occurrence of two consecutive newlines
replaced by one in a single global textual pass — in particular three
consecutive newlines collapse to two, not one, as the concrete runs
show. -/
theorem c9_postprocess_pipeline (root : PNode) (data : PyScope) (raw : String)
    (c' : Context) (evs : List ScopeEvent)
    (h : renderNode root (ContextOf data) = (.ok (.str raw), c', evs)) :
    Template.render root data = .ok ((pyReplaceNN (pyStrip raw).toList).asString) ∧
    pyReplaceNN ['\n', '\n', '\n'] = ['\n', '\n'] ∧
    fullRender "  A\n\n\nB\x7b# c #\x7d" [] = .ok "A\n\nB" := by
  refine ⟨?_, rfl, rfl⟩
  unfold Template.render
  rw [h]
  rfl

/-- C9, witness: the pipeline applied to a one-text-node tree. -/
theorem c9_postprocess_pipeline_witness :
    Template.render (.node [.textNode ⟨"text", "x"⟩]) [] =
      .ok ((pyReplaceNN (pyStrip "x").toList).asString) ∧
    pyReplaceNN ['\n', '\n', '\n'] = ['\n', '\n'] ∧
    fullRender "  A\n\n\nB\x7b# c #\x7d" [] = .ok "A\n\nB" :=
  c9_postprocess_pipeline (.node [.textNode ⟨"text", "x"⟩]) [] "x"
    (ContextOf []) [] rfl

/-- C10 (confirmed): an instruction token whose keyword is none of the
start/mid/end words is skipped by the parser — the parse state is
unchanged — and such a token contributes nothing to the output
(`\x7b% bogus %\x7dOK` compiles and renders to `"OK"`). -/
theorem c10_unknown_keyword_skipped (tok : Token) (rest : List Token)
    (frames : List Frame) (expecting : List String) (kw : String)
    (htype : tok.type = "instruction") (hkw : tok.keywordOpt = some kw)
    (h1 : kw ∉ Parser.startwords) (h2 : kw ∉ Parser.midwords)
    (h3 : kw ∉ Parser.endwords) :
    parseLoop (tok :: rest) frames expecting = parseLoop rest frames expecting ∧
    fullRender "\x7b% bogus %\x7dOK" [] = .ok "OK" := by
  refine ⟨?_, rfl⟩
  conv_lhs => rw [parseLoop]
  rw [if_neg (by rw [htype]; decide), if_neg (by rw [htype]; decide),
    if_pos htype, hkw]
  dsimp only
  rw [if_neg h1, if_neg h2, if_neg h3]

/-- C10, witness: the skip applied to the token `\x7b% bogus %\x7d`. -/
theorem c10_unknown_keyword_skipped_witness :
    parseLoop [⟨"instruction", "bogus"⟩] [Frame.rootF []] [] =
      parseLoop [] [Frame.rootF []] [] ∧
    fullRender "\x7b% bogus %\x7dOK" [] = .ok "OK" :=
  c10_unknown_keyword_skipped ⟨"instruction", "bogus"⟩ [] [Frame.rootF []] []
    "bogus" rfl rfl (by decide) (by decide) (by decide)

end Claims
